import Mathlib

/-!
Shallow embedding of the operator-allocation core (operator_allocator.py)
of the INA repository: the transaction and categorized-statistics rows,
the allocation passes (quota split, greedy assignment, gap filling,
redistribution) and the efficiency evaluator, together with theorems
about the allocation invariants.  Machine floats of the source are
modelled by exact rationals; since the library hides rational addition,
multiplication and division behind irreducible definitions, the
embedding computes with the kernel-reducible equivalents qadd, qmul and
qdiv, each proved equal to the standard operation.
-/

namespace INA

/-- A transaction-table row, restricted to the columns the allocator reads:
style description (ODPI_ST_Description), operation description
(ODPI_PC_Description) and standard time (ODPI_OC_Standard_Time). -/
structure TxRow where
  st : String
  pc : String
  stdTime : ℚ
deriving DecidableEq, Repr

/-- A categorized-statistics row (one StatRecord): operator key
(ODPI_EM_Key), style, operation, Operation_Frequency,
Normalized_Weightage and Average_Efficiency. -/
structure StatRow where
  em : ℕ
  st : String
  pc : String
  opFreq : ℕ
  weight : ℚ
  avgEff : ℚ
deriving DecidableEq, Repr

/-- Rational addition, computed directly on numerators and denominators
(equal to + on ℚ, proved in qadd_eq). -/
def qadd (a b : ℚ) : ℚ := mkRat (a.num * b.den + b.num * a.den) (a.den * b.den)

/-- Rational multiplication, computed directly (equal to * on ℚ). -/
def qmul (a b : ℚ) : ℚ := mkRat (a.num * b.num) (a.den * b.den)

/-- Rational division, computed directly (equal to / on ℚ, with the
convention that division by zero gives zero). -/
def qdiv (a b : ℚ) : ℚ := Rat.divInt (a.num * b.den) (a.den * b.num)

/-- Sum of a list of rationals (equal to List.sum). -/
def qsum (l : List ℚ) : ℚ := l.foldr qadd 0

/-- Keyed lookup in an association list (first matching key), modelling
Python dict access and the first element of a boolean-mask selection. -/
def alookup {β : Type} (k : String) : List (String × β) → Option β
  | [] => none
  | (a, b) :: m => if a = k then some b else alookup k m

/-- Keyed update in an association list: replaces the value at the first
occurrence of the key, else appends, modelling Python dict assignment
(insertion order preserved, existing keys keep their position). -/
def aset {β : Type} (k : String) (v : β) : List (String × β) → List (String × β)
  | [] => [(k, v)]
  | (a, b) :: m => if a = k then (a, v) :: m else (a, b) :: aset k v m

/-- The operation-to-operator-list mapping of one style. -/
abbrev OpMap := List (String × List ℕ)

/-- The allocation plan: style to operation to ordered operator list. -/
abbrev Plan := List (String × OpMap)

/-- Python dict access with an absent key treated as the empty mapping. -/
def lookupD (k : String) (p : Plan) : OpMap := (alookup k p).getD []

/-- Insert into a best-first list: the new element stays behind every
element it does not outrank (le a b reads: a ranks no higher than b). -/
def insertRanked {α : Type} (le : α → α → Bool) (a : α) : List α → List α
  | [] => [a]
  | b :: l => if le a b then b :: insertRanked le a l else a :: b :: l

/-- Best-first insertion sort, modelling sort_values(ascending=False). -/
def rankSort {α : Type} (le : α → α → Bool) : List α → List α
  | [] => []
  | a :: l => insertRanked le a (rankSort le l)

/-- The ranking key of _assign_to_operation: Operation_Frequency first,
Normalized_Weightage second, both compared for the descending sort. -/
def statLe (a b : StatRow) : Bool :=
  decide (a.opFreq < b.opFreq ∨ (a.opFreq = b.opFreq ∧ a.weight ≤ b.weight))

/-- Mean of a list of rationals (pandas groupby mean). -/
def ratMean (l : List ℚ) : ℚ := qdiv (qsum l) (l.length : ℚ)

/-- The allocator state: the process-wide assigned-operator set
(self.assigned_operators, membership is all that ever matters) and the
allocation plan under construction. -/
structure AllocState where
  assigned : List ℕ
  plan : Plan
deriving DecidableEq, Repr

/-- _assign_to_operation: filter the statistics rows to this exact
(operation, style), operators in the available slice and not yet
assigned; rank by (Operation_Frequency desc, Normalized_Weightage desc);
take the head count and return the operator keys in ranked order. -/
def assign_to_operation (catDf : List StatRow) (operation style : String)
    (operators : List ℕ) (numOperators : ℕ) (assigned : List ℕ) : List ℕ :=
  let eligible := catDf.filter fun r =>
    decide (r.pc = operation ∧ r.st = style ∧ r.em ∈ operators ∧ r.em ∉ assigned)
  ((rankSort statLe eligible).take numOperators).map (·.em)

/-- The clamped head count of one operation:
max(1, min(7, ceil(opTime / sumT * |available|))). -/
def headcount (opTime sumT : ℚ) (availLen : ℕ) : ℕ :=
  max 1 (min 7 (Int.toNat ⌈qmul (qdiv opTime sumT) (availLen : ℚ)⌉))

/-- One iteration of the per-operation loop of allocate_operators:
compute the clamped head count from the operation's share of the style's
standard time and record the greedy assignment in the plan. -/
def allocate_one_operation (catDf : List StatRow) (style : String)
    (avail : List ℕ) (sumT : ℚ) (st : AllocState) (ot : String × ℚ) : AllocState :=
  let chosen := assign_to_operation catDf ot.1 style avail
    (headcount ot.2 sumT avail.length) st.assigned
  { assigned := chosen ++ st.assigned,
    plan := aset style (aset ot.1 chosen (lookupD style st.plan)) st.plan }

/-- _get_unskilled_operators: statistics rows of available, unassigned
operators whose row does not match this exact (operation, style) pair,
ranked by Normalized_Weightage descending. -/
def get_unskilled_operators (catDf : List StatRow) (operation style : String)
    (operators : List ℕ) (assigned : List ℕ) : List StatRow :=
  rankSort (fun a b => decide (a.weight ≤ b.weight))
    (catDf.filter fun r =>
      decide (r.em ∈ operators ∧ r.em ∉ assigned ∧ ¬(r.pc = operation ∧ r.st = style)))

/-- First entry of an operation mapping holding at least one operator,
returned as (key, first operator, rest). -/
def findFirstNonempty : OpMap → Option (String × ℕ × List ℕ)
  | [] => none
  | (_, []) :: m => findFirstNonempty m
  | (k, x :: xs) :: _ => some (k, x, xs)

/-- First entry of an operation mapping holding strictly more than one
operator, returned as (key, first operator, rest). -/
def findFirstDonor : OpMap → Option (String × ℕ × List ℕ)
  | [] => none
  | (k, x :: y :: xs) :: _ => some (k, x, y :: xs)
  | _ :: m => findFirstDonor m

/-- One iteration of the _fill_empty_operations loop: if the operation's
list is missing or empty, assign the top unskilled operator, else steal
the first operator of the first operation holding one. -/
def fill_one_operation (catDf : List StatRow) (style : String) (avail : List ℕ)
    (st : AllocState) (operation : String) : AllocState :=
  match alookup operation (lookupD style st.plan) with
  | some (_ :: _) => st
  | _ =>
    match get_unskilled_operators catDf operation style avail st.assigned with
    | r :: _ =>
      { assigned := r.em :: st.assigned,
        plan := aset style (aset operation [r.em] (lookupD style st.plan)) st.plan }
    | [] =>
      match findFirstNonempty (lookupD style st.plan) with
      | some (donor, x, xs) =>
        { assigned := x :: st.assigned,
          plan := aset style (aset operation [x]
            (aset donor xs (lookupD style st.plan))) st.plan }
      | none => st

/-- _fill_empty_operations: run the gap filler over the style's
operations in their priority order. -/
def fill_empty_operations (opTimes : List (String × ℚ)) (catDf : List StatRow)
    (style : String) (avail : List ℕ) (st : AllocState) : AllocState :=
  (opTimes.map (·.1)).foldl (fill_one_operation catDf style avail) st

/-- _redistribute_operators: move the first operator of the first
operation of the style holding strictly more than one operator to the
given operation; leave the state untouched when no donor exists. -/
def redistribute_operators (style operation : String) (st : AllocState) : AllocState :=
  match findFirstDonor (lookupD style st.plan) with
  | some (donor, x, xs) =>
    { assigned := x :: st.assigned,
      plan := aset style (aset operation [x]
        (aset donor xs (lookupD style st.plan))) st.plan }
  | none => st

/-- One check of _ensure_no_empty_operations: repair the operation if its
list is empty at the moment it is visited. -/
def ensure_step (style : String) (st : AllocState) (operation : String) : AllocState :=
  match alookup operation (lookupD style st.plan) with
  | some [] => redistribute_operators style operation st
  | _ => st

/-- The sweep of _ensure_no_empty_operations over one style's operations. -/
def ensure_style (st : AllocState) (style : String) : AllocState :=
  ((lookupD style st.plan).map (·.1)).foldl (ensure_step style) st

/-- _ensure_no_empty_operations: final sweep over the whole plan. -/
def ensure_no_empty_operations (st : AllocState) : AllocState :=
  (st.plan.map (·.1)).foldl ensure_style st

/-- The quality-check operation labels excluded from the priority list.
Modelled from the spec: line 56 of operator_allocator.py (the filter on
ODPI_PC_Description) is not syntactically valid Python, so the excluded
label set is taken from the two string literals written on that line and
the adjacent comment; the comparison is the exact equality the source
writes, not a case-insensitive match. -/
def qcLabels : List String := ["QUALITY CHECK", "QUALITY CHECKING"]

/-- The priority-ordered operation list of one style: rows of the style
without the quality-check labels, grouped by operation, mean standard
time per operation, sorted descending by that mean. -/
def operation_times (df : List TxRow) (style : String) : List (String × ℚ) :=
  let rows := df.filter fun r => decide (r.st = style ∧ r.pc ∉ qcLabels)
  let ops := (rows.map (·.pc)).dedup
  rankSort (fun a b => decide (a.2 ≤ b.2))
    (ops.map fun o => (o, ratMean ((rows.filter fun r => decide (r.pc = o)).map (·.stdTime))))

/-- style_operation_counts: distinct-operation count per style, over the
transaction rows restricted to the requested styles (pandas groupby
nunique; only styles actually present in the restricted table appear). -/
def style_operation_counts (df : List TxRow) (styles : List String) :
    List (String × ℕ) :=
  let filtered := df.filter fun r => decide (r.st ∈ styles)
  ((filtered.map (·.st)).dedup).map fun s =>
    (s, (((filtered.filter fun r => decide (r.st = s)).map (·.pc)).dedup).length)

/-- total_operations: the sum of the per-style distinct-operation counts. -/
def total_operations (df : List TxRow) (styles : List String) : ℕ :=
  ((style_operation_counts df styles).map (·.2)).sum

/-- The Operator_Allocation column: per-style quota
ceil(count / total * pool size), as a keyed table. -/
def operator_allocation_table (df : List TxRow) (styles : List String)
    (poolSize : ℕ) : List (String × ℕ) :=
  (style_operation_counts df styles).map fun sc =>
    (sc.1, Int.toNat ⌈qmul (qdiv (sc.2 : ℚ) (total_operations df styles : ℚ)) (poolSize : ℚ)⌉)

/-- One iteration of the per-style loop of allocate_operators: look up
the style's quota (the .values[0] access on an empty selection is the
none case, modelling the raised IndexError), slice the remaining pool,
reset the style's mapping, run the greedy pass over the priority-ordered
operations, then the gap filler. -/
def process_style (catDf : List StatRow) (df : List TxRow)
    (table : List (String × ℕ)) (acc : Option (AllocState × List ℕ))
    (style : String) : Option (AllocState × List ℕ) :=
  match acc with
  | none => none
  | some (st, pool) =>
    match alookup style table with
    | none => none
    | some numStyleOperators =>
      let avail := pool.take numStyleOperators
      let pool1 := pool.drop numStyleOperators
      let opTimes := operation_times df style
      let sumT := qsum (opTimes.map (·.2))
      let st1 : AllocState := { st with plan := aset style [] st.plan }
      let st2 := opTimes.foldl (allocate_one_operation catDf style avail sumT) st1
      let st3 := fill_empty_operations opTimes catDf style avail st2
      some (st3, pool1)

/-- allocate_operators, threaded over the instance state: takes the
current self.assigned_operators content and returns the plan together
with the new content; none models the exception raised when a requested
style is absent from the restricted transaction table. -/
def allocate_operators (catDf : List StatRow) (df : List TxRow)
    (operators : List ℕ) (styles : List String) (assigned0 : List ℕ) :
    Option (Plan × List ℕ) :=
  match styles.foldl
      (process_style catDf df (operator_allocation_table df styles operators.length))
      (some ({ assigned := assigned0, plan := [] }, operators)) with
  | none => none
  | some (st, _) =>
    some ((ensure_no_empty_operations st).plan, (ensure_no_empty_operations st).assigned)

/-- The first statistics row matching (operator, style, operation): the
.values[0] element of the boolean-mask selection, none when empty. -/
def first_match (catDf : List StatRow) (style operation : String) (em : ℕ) :
    Option StatRow :=
  (catDf.filter fun r => decide (r.em = em ∧ r.st = style ∧ r.pc = operation)).head?

/-- One operator's contribution inside calculate_achieved_efficiency:
the first statistics row matching (operator, style, operation) adds its
Average_Efficiency to the running sum and bumps the match counter. -/
def efficiency_step (catDf : List StatRow) (style operation : String)
    (acc : ℚ × ℕ) (em : ℕ) : ℚ × ℕ :=
  match first_match catDf style operation em with
  | none => acc
  | some r => (qadd acc.1 r.avgEff, acc.2 + 1)

/-- calculate_achieved_efficiency: per style, the summed matched
Average_Efficiency divided by the match count, 0 when nothing matched. -/
def calculate_achieved_efficiency (allocation : Plan) (catDf : List StatRow) :
    List (String × ℚ) :=
  allocation.map fun sm =>
    let tc := sm.2.foldl (fun acc ol => ol.2.foldl (efficiency_step catDf sm.1 ol.1) acc)
      ((0 : ℚ), (0 : ℕ))
    (sm.1, if 0 < tc.2 then qdiv tc.1 (tc.2 : ℚ) else 0)

/-- The full pipeline of one analysis request: allocate, then score. -/
def run_pipeline (catDf : List StatRow) (df : List TxRow) (operators : List ℕ)
    (styles : List String) (assigned0 : List ℕ) :
    Option (Plan × List (String × ℚ) × List ℕ) :=
  (allocate_operators catDf df operators styles assigned0).map fun pa =>
    (pa.1, calculate_achieved_efficiency pa.1 catDf, pa.2)

instance : DecidableEq (Plan × List ℕ) := instDecidableEqProd

instance : DecidableEq (List (String × ℚ) × List ℕ) := instDecidableEqProd

instance : DecidableEq (Plan × List (String × ℚ) × List ℕ) := instDecidableEqProd

/-! ### Specification-side definitions used in theorem statements -/

/-- The matched Average_Efficiency values of one style's plan entries:
one value for every (operation, operator) pair having a statistics
record, pairs without a record skipped. -/
def matched_efficiencies (catDf : List StatRow) (style : String) (ops : OpMap) :
    List ℚ :=
  ops.flatMap fun ol =>
    ol.2.filterMap fun em => (first_match catDf style ol.1 em).map (·.avgEff)

/-- The selection the spec describes for the greedy pass: the plan entry
consists of the operator keys of min(headcount, eligible count) eligible
rows, listed best-first by the (frequency, weightage) ranking, and no
eligible row left out outranks a selected one. -/
def TopRanked (eligible : List StatRow) (hc : ℕ) (res : List ℕ) : Prop :=
  ∃ chosen : List StatRow,
    res = chosen.map (·.em) ∧
    chosen.length = min hc eligible.length ∧
    (∀ r ∈ chosen, r ∈ eligible) ∧
    chosen.Pairwise (fun a b => statLe b a = true) ∧
    (∀ r ∈ eligible, r ∉ chosen → ∀ r0 ∈ chosen, statLe r r0 = true)

/-- An unskilled-fallback candidate as the spec describes it: an
operator of the style's available slice, not yet assigned, whose row
does not match this exact (style, operation) pair. -/
def UnskilledCandidate (style operation : String) (avail assigned : List ℕ)
    (r : StatRow) : Prop :=
  r.em ∈ avail ∧ r.em ∉ assigned ∧ ¬(r.pc = operation ∧ r.st = style)

/-- The operator has no statistics record matching this exact
(style, operation) pair. -/
def NoMatchingRecord (catDf : List StatRow) (style operation : String) (e : ℕ) : Prop :=
  ∀ r ∈ catDf, ¬(r.st = style ∧ r.pc = operation ∧ r.em = e)

/-- The distinct-operation count of one style over the whole table
(the spec's opsCount). -/
def distinct_operation_count (df : List TxRow) (s : String) : ℕ :=
  (((df.filter fun r => decide (r.st = s)).map (·.pc)).dedup).length

/-- Membership of an operator key somewhere in a plan. -/
def PlanMem (x : ℕ) (p : Plan) : Prop :=
  ∃ sm ∈ p, ∃ ol ∈ sm.2, x ∈ ol.2

/-- Every operator key listed anywhere in the plan is in the assigned set. -/
def PlanSub (st : AllocState) : Prop :=
  ∀ sm ∈ st.plan, ∀ ol ∈ sm.2, ∀ x ∈ ol.2, x ∈ st.assigned

/-- Global uniqueness of a plan: no operator key appears in the lists of
two distinct (style, operation) entries. -/
def PlanDisjoint (p : Plan) : Prop :=
  ∀ sm1 ∈ p, ∀ ol1 ∈ sm1.2, ∀ sm2 ∈ p, ∀ ol2 ∈ sm2.2,
    (sm1.1, ol1.1) ≠ (sm2.1, ol2.1) → ∀ x ∈ ol1.2, x ∉ ol2.2

/-- The structural invariant maintained by every pass: style keys and
per-style operation keys are unique, every operator list is duplicate
free, the lists of distinct entries are pairwise disjoint, and every
listed operator key is in the assigned set. -/
structure PlanInv (st : AllocState) : Prop where
  keys1 : (st.plan.map Prod.fst).Nodup
  keys2 : ∀ sm ∈ st.plan, (sm.2.map Prod.fst).Nodup
  nodupL : ∀ sm ∈ st.plan, ∀ ol ∈ sm.2, (ol.2 : List ℕ).Nodup
  disj : PlanDisjoint st.plan
  sub : PlanSub st

/-- Every operator key listed in the style's own operation mapping is
drawn from the given slice of the pool. -/
def StyleSub (style : String) (avail : List ℕ) (st : AllocState) : Prop :=
  ∀ ol ∈ lookupD style st.plan, ∀ x ∈ ol.2, x ∈ avail

/-- Transaction rows of the two-style quota example: style A has two
distinct operations X and Y, style B the single operation Z. -/
def dfC2ex : List TxRow :=
  [⟨"A", "X", 10⟩, ⟨"A", "Y", 5⟩, ⟨"B", "Z", 8⟩]

/-- Statistics rows of the two-style quota example: one row per
(operator, style, operation), all five pool operators skilled. -/
def catC2ex : List StatRow :=
  [⟨1, "A", "X", 5, mkRat 3 10, 100⟩, ⟨2, "A", "X", 4, mkRat 1 4, 90⟩,
   ⟨3, "A", "Y", 5, mkRat 1 5, 80⟩, ⟨4, "A", "Y", 4, mkRat 3 20, 85⟩,
   ⟨5, "B", "Z", 2, mkRat 1 10, 95⟩]

/-! ### The computable rational operations equal the standard ones -/

theorem qadd_eq (a b : ℚ) : qadd a b = a + b := by
  have ha : (a.den : ℚ) ≠ 0 := by exact_mod_cast a.den_nz
  have hb : (b.den : ℚ) ≠ 0 := by exact_mod_cast b.den_nz
  unfold qadd
  rw [Rat.mkRat_eq_div]
  push_cast
  conv_rhs => rw [← Rat.num_div_den a, ← Rat.num_div_den b]
  rw [div_add_div _ _ ha hb]
  ring_nf

theorem qmul_eq (a b : ℚ) : qmul a b = a * b := by
  have ha : (a.den : ℚ) ≠ 0 := by exact_mod_cast a.den_nz
  have hb : (b.den : ℚ) ≠ 0 := by exact_mod_cast b.den_nz
  unfold qmul
  rw [Rat.mkRat_eq_div]
  push_cast
  conv_rhs => rw [← Rat.num_div_den a, ← Rat.num_div_den b]
  rw [div_mul_div_comm]

theorem qdiv_eq (a b : ℚ) : qdiv a b = a / b := by
  unfold qdiv
  rcases eq_or_ne b 0 with hb | hb
  · subst hb
    simp [Rat.divInt_eq_div]
  · have ha : (a.den : ℚ) ≠ 0 := by exact_mod_cast a.den_nz
    have hbd : (b.den : ℚ) ≠ 0 := by exact_mod_cast b.den_nz
    have hbn : (b.num : ℚ) ≠ 0 := by
      exact_mod_cast Rat.num_ne_zero.mpr hb
    rw [Rat.divInt_eq_div]
    push_cast
    conv_rhs => rw [← Rat.num_div_den a, ← Rat.num_div_den b]
    rw [div_div_div_comm, div_div_eq_mul_div, div_mul_eq_mul_div, mul_comm (a.num : ℚ) (b.den : ℚ)]
    rw [div_div, mul_comm (a.den : ℚ) (b.num : ℚ)]

theorem qsum_eq (l : List ℚ) : qsum l = l.sum := by
  induction l with
  | nil => rfl
  | cons a l ih =>
    simp only [qsum, List.foldr_cons, List.sum_cons]
    rw [← ih]
    exact qadd_eq a (qsum l)

theorem ratMean_eq (l : List ℚ) : ratMean l = l.sum / (l.length : ℚ) := by
  unfold ratMean
  rw [qdiv_eq, qsum_eq]

theorem headcount_eq (opTime sumT : ℚ) (availLen : ℕ) :
    headcount opTime sumT availLen =
      max 1 (min 7 (Int.toNat ⌈opTime / sumT * (availLen : ℚ)⌉)) := by
  unfold headcount
  rw [qmul_eq, qdiv_eq]

/-! ### Association-list lemmas -/

theorem alookup_aset {β : Type} (k j : String) (v : β) (m : List (String × β)) :
    alookup j (aset k v m) = if k = j then some v else alookup j m := by
  induction m with
  | nil => simp [aset, alookup]
  | cons a m ih =>
    obtain ⟨a1, a2⟩ := a
    by_cases h1 : a1 = k
    · subst h1
      by_cases h2 : a1 = j
      · subst h2
        simp [aset, alookup]
      · simp [aset, alookup, h2]
    · by_cases h2 : a1 = j
      · subst h2
        have hk : ¬ k = a1 := fun hh => h1 hh.symm
        simp [aset, alookup, h1, hk]
      · simp [aset, alookup, h1, h2, ih]

theorem mem_of_alookup {β : Type} {k : String} {v : β} : ∀ {m : List (String × β)},
    alookup k m = some v → (k, v) ∈ m := by
  intro m
  induction m with
  | nil => intro h; simp [alookup] at h
  | cons a m ih =>
    obtain ⟨a1, a2⟩ := a
    intro h
    by_cases h1 : a1 = k
    · subst h1
      simp [alookup] at h
      subst h
      exact List.mem_cons_self _ _
    · simp only [alookup, if_neg h1] at h
      exact List.mem_cons_of_mem _ (ih h)

theorem alookup_eq_of_mem {β : Type} {k : String} {v : β} : ∀ {m : List (String × β)},
    (m.map Prod.fst).Nodup → (k, v) ∈ m → alookup k m = some v := by
  intro m
  induction m with
  | nil => intro _ h; simp at h
  | cons a m ih =>
    obtain ⟨a1, a2⟩ := a
    intro hn h
    rw [List.map_cons, List.nodup_cons] at hn
    rcases List.mem_cons.mp h with h1 | h1
    · injection h1 with hk hv
      subst hk
      subst hv
      simp [alookup]
    · have hk : ¬ a1 = k := by
        intro he
        refine hn.1 ?_
        rw [he]
        exact List.mem_map.mpr ⟨(k, v), h1, rfl⟩
      simp only [alookup, if_neg hk]
      exact ih hn.2 h1

theorem alookup_none_iff {β : Type} {k : String} : ∀ {m : List (String × β)},
    alookup k m = none ↔ k ∉ m.map Prod.fst := by
  intro m
  induction m with
  | nil => simp [alookup]
  | cons a m ih =>
    obtain ⟨a1, a2⟩ := a
    by_cases h : a1 = k
    · subst h
      simp [alookup]
    · simp only [alookup, if_neg h, List.map_cons, List.mem_cons, ih]
      constructor
      · intro hm hc
        rcases hc with hc | hc
        · exact h hc.symm
        · exact hm hc
      · intro hc
        exact fun hm => hc (Or.inr hm)

theorem keys_aset_of_mem {β : Type} {k : String} (v : β) : ∀ {m : List (String × β)},
    k ∈ m.map Prod.fst → (aset k v m).map Prod.fst = m.map Prod.fst := by
  intro m
  induction m with
  | nil => intro h; simp at h
  | cons a m ih =>
    obtain ⟨a1, a2⟩ := a
    intro h
    by_cases h1 : a1 = k
    · simp [aset, h1]
    · have h2 : k ∈ m.map Prod.fst := by
        rw [List.map_cons] at h
        rcases List.mem_cons.mp h with h2 | h2
        · exact absurd h2.symm h1
        · exact h2
      simp [aset, h1, ih h2]

theorem keys_aset_of_not_mem {β : Type} {k : String} (v : β) : ∀ {m : List (String × β)},
    k ∉ m.map Prod.fst → (aset k v m).map Prod.fst = m.map Prod.fst ++ [k] := by
  intro m
  induction m with
  | nil => intro _; simp [aset]
  | cons a m ih =>
    obtain ⟨a1, a2⟩ := a
    intro h
    rw [List.map_cons] at h
    have h1 : ¬ a1 = k := fun he => h (List.mem_cons.mpr (Or.inl he.symm))
    have h2 : k ∉ m.map Prod.fst := fun he => h (List.mem_cons.mpr (Or.inr he))
    simp only [aset, if_neg h1, List.map_cons, ih h2, List.cons_append]

theorem keys_aset_nodup {β : Type} {k : String} (v : β) {m : List (String × β)}
    (h : (m.map Prod.fst).Nodup) : ((aset k v m).map Prod.fst).Nodup := by
  by_cases hm : k ∈ m.map Prod.fst
  · rw [keys_aset_of_mem v hm]
    exact h
  · rw [keys_aset_of_not_mem v hm]
    simp [List.nodup_append, h, hm]

theorem mem_aset_val {β : Type} {k : String} {v : β} {sm : String × β} :
    ∀ {m : List (String × β)}, sm ∈ aset k v m → sm.2 = v ∨ sm ∈ m := by
  intro m
  induction m with
  | nil =>
    intro h
    simp [aset] at h
    left
    rw [h]
  | cons a m ih =>
    obtain ⟨a1, a2⟩ := a
    intro h
    by_cases h1 : a1 = k
    · simp only [aset, if_pos h1] at h
      rcases List.mem_cons.mp h with h2 | h2
      · left; rw [h2]
      · right; exact List.mem_cons_of_mem _ h2
    · simp only [aset, if_neg h1] at h
      rcases List.mem_cons.mp h with h2 | h2
      · right
        rw [h2]
        exact List.mem_cons_self _ _
      · rcases ih h2 with h3 | h3
        · left; exact h3
        · right; exact List.mem_cons_of_mem _ h3

theorem mem_aset_strong {β : Type} {k : String} {v : β} {sm : String × β} :
    ∀ {m : List (String × β)}, (m.map Prod.fst).Nodup → sm ∈ aset k v m →
    (sm.1 = k ∧ sm.2 = v) ∨ (sm ∈ m ∧ sm.1 ≠ k) := by
  intro m
  induction m with
  | nil =>
    intro _ h
    simp [aset] at h
    left
    rw [h]
    exact ⟨rfl, rfl⟩
  | cons a m ih =>
    obtain ⟨a1, a2⟩ := a
    intro hn h
    rw [List.map_cons, List.nodup_cons] at hn
    by_cases h1 : a1 = k
    · subst h1
      simp only [aset, if_pos rfl] at h
      rcases List.mem_cons.mp h with h2 | h2
      · left
        rw [h2]
        exact ⟨rfl, rfl⟩
      · right
        refine ⟨List.mem_cons_of_mem _ h2, ?_⟩
        intro he
        refine hn.1 ?_
        rw [← he]
        exact List.mem_map.mpr ⟨sm, h2, rfl⟩
    · simp only [aset, if_neg h1] at h
      rcases List.mem_cons.mp h with h2 | h2
      · right
        rw [h2]
        exact ⟨List.mem_cons_self _ _, h1⟩
      · rcases ih hn.2 h2 with h3 | h3
        · left; exact h3
        · exact Or.inr ⟨List.mem_cons_of_mem _ h3.1, h3.2⟩

theorem mem_aset_self {β : Type} (k : String) (v : β) : ∀ m : List (String × β),
    (k, v) ∈ aset k v m := by
  intro m
  induction m with
  | nil => simp [aset]
  | cons a m ih =>
    obtain ⟨a1, a2⟩ := a
    by_cases h1 : a1 = k
    · subst h1
      simp [aset]
    · simp only [aset, if_neg h1]
      exact List.mem_cons_of_mem _ ih

/-! ### Ranking-sort lemmas -/

theorem perm_insertRanked {α : Type} (le : α → α → Bool) (a : α) (l : List α) :
    List.Perm (insertRanked le a l) (a :: l) := by
  induction l with
  | nil => simp [insertRanked]
  | cons b l ih =>
    by_cases h : le a b
    · simp only [insertRanked, if_pos h]
      exact (ih.cons b).trans (List.Perm.swap a b l)
    · simp [insertRanked, h]

theorem perm_rankSort {α : Type} (le : α → α → Bool) (l : List α) :
    List.Perm (rankSort le l) l := by
  induction l with
  | nil => simp [rankSort]
  | cons a l ih =>
    exact (perm_insertRanked le a (rankSort le l)).trans (ih.cons a)

theorem pairwise_insertRanked {α : Type} {le : α → α → Bool}
    (htot : ∀ a b, le a b = true ∨ le b a = true)
    (htrans : ∀ a b c, le a b = true → le b c = true → le a c = true)
    {a : α} {l : List α} (h : l.Pairwise (fun x y => le y x = true)) :
    (insertRanked le a l).Pairwise (fun x y => le y x = true) := by
  induction l with
  | nil => simp [insertRanked]
  | cons b l ih =>
    rcases List.pairwise_cons.mp h with ⟨hb, hl⟩
    by_cases hab : le a b
    · simp only [insertRanked, if_pos hab]
      refine List.pairwise_cons.mpr ⟨?_, ih hl⟩
      intro x hx
      have hx2 : x ∈ a :: l := (perm_insertRanked le a l).mem_iff.mp hx
      rcases List.mem_cons.mp hx2 with hx3 | hx3
      · rw [hx3]; exact hab
      · exact hb x hx3
    · simp only [insertRanked, if_neg hab]
      have hba : le b a = true := (htot a b).resolve_left (by simpa using hab)
      refine List.pairwise_cons.mpr ⟨?_, h⟩
      intro x hx
      rcases List.mem_cons.mp hx with hx | hx
      · rw [hx]; exact hba
      · exact htrans x b a (hb x hx) hba

theorem pairwise_rankSort {α : Type} {le : α → α → Bool}
    (htot : ∀ a b, le a b = true ∨ le b a = true)
    (htrans : ∀ a b c, le a b = true → le b c = true → le a c = true)
    (l : List α) : (rankSort le l).Pairwise (fun x y => le y x = true) := by
  induction l with
  | nil => simp [rankSort]
  | cons a l ih => exact pairwise_insertRanked htot htrans ih

/-! ### Efficiency-evaluator characterization (C7) -/

theorem foldl_efficiency_step (catDf : List StatRow) (style operation : String) :
    ∀ (ems : List ℕ) (t : ℚ) (c : ℕ),
    ems.foldl (efficiency_step catDf style operation) (t, c) =
      (t + (ems.filterMap fun em =>
        (first_match catDf style operation em).map (·.avgEff)).sum,
       c + (ems.filterMap fun em =>
        (first_match catDf style operation em).map (·.avgEff)).length) := by
  intro ems
  induction ems with
  | nil => intro t c; simp
  | cons em ems ih =>
    intro t c
    cases hf : first_match catDf style operation em with
    | none =>
      simp only [List.foldl_cons, List.filterMap_cons, efficiency_step, hf]
      exact ih t c
    | some r =>
      simp only [List.foldl_cons, List.filterMap_cons, efficiency_step, hf,
        Option.map_some, List.sum_cons, List.length_cons, qadd_eq]
      rw [ih]
      refine Prod.ext ?_ ?_
      · simp [add_assoc]
      · simp [Nat.add_comm, Nat.add_assoc, Nat.add_left_comm]

theorem foldl_efficiency_outer (catDf : List StatRow) (style : String) :
    ∀ (ops : OpMap) (t : ℚ) (c : ℕ),
    ops.foldl (fun acc ol => ol.2.foldl (efficiency_step catDf style ol.1) acc) (t, c) =
      (t + (matched_efficiencies catDf style ops).sum,
       c + (matched_efficiencies catDf style ops).length) := by
  intro ops
  induction ops with
  | nil => intro t c; simp [matched_efficiencies]
  | cons ol ops ih =>
    intro t c
    simp only [List.foldl_cons, matched_efficiencies, List.flatMap_cons]
    rw [foldl_efficiency_step, ih]
    refine Prod.ext ?_ ?_
    · simp [matched_efficiencies, add_assoc]
    · simp [matched_efficiencies, Nat.add_assoc]

/-- Claim C7: for every style of the plan, calculate_achieved_efficiency
returns the sum of Average_Efficiency over exactly the (operation,
operator) pairs of the plan that have a matching statistics record for
(style, operation, operator), divided by the number of matched pairs;
pairs without a record are silently skipped, and the result is exactly 0
when no pair matched. -/
theorem C7_efficiency_evaluator (allocation : Plan) (catDf : List StatRow) :
    calculate_achieved_efficiency allocation catDf =
      allocation.map (fun sm =>
        (sm.1,
          if (matched_efficiencies catDf sm.1 sm.2).length = 0 then 0
          else (matched_efficiencies catDf sm.1 sm.2).sum /
            ((matched_efficiencies catDf sm.1 sm.2).length : ℚ))) := by
  unfold calculate_achieved_efficiency
  congr 1
  funext sm
  rw [foldl_efficiency_outer]
  by_cases h : (matched_efficiencies catDf sm.1 sm.2).length = 0
  · simp [h]
  · simp [h, Nat.pos_of_ne_zero h, qdiv_eq]

/-! ### Quota-table lemmas (C9, C2) -/

theorem alookup_map_self {γ : Type} (g : String → γ) (s : String) :
    ∀ keys : List String,
    alookup s (keys.map fun k => (k, g k)) =
      if s ∈ keys then some (g s) else none := by
  intro keys
  induction keys with
  | nil => simp [alookup]
  | cons k rest ih =>
    by_cases h : k = s
    · subst h
      simp [alookup]
    · have hmem : (s ∈ k :: rest) ↔ (s ∈ rest) := by
        constructor
        · intro hm
          rcases List.mem_cons.mp hm with hm | hm
          · exact absurd hm.symm h
          · exact hm
        · exact List.mem_cons_of_mem k
      simp only [List.map_cons, alookup, if_neg h, ih]
      by_cases h2 : s ∈ rest
      · rw [if_pos h2, if_pos (hmem.mpr h2)]
      · rw [if_neg h2, if_neg (fun hm => h2 (hmem.mp hm))]

theorem keys_style_operation_counts (df : List TxRow) (styles : List String) :
    (style_operation_counts df styles).map Prod.fst =
      ((df.filter fun r => decide (r.st ∈ styles)).map (·.st)).dedup := by
  unfold style_operation_counts
  rw [List.map_map]
  exact List.map_id _

theorem keys_operator_allocation_table (df : List TxRow) (styles : List String)
    (poolSize : ℕ) :
    (operator_allocation_table df styles poolSize).map Prod.fst =
      (style_operation_counts df styles).map Prod.fst := by
  unfold operator_allocation_table
  rw [List.map_map]
  rfl

theorem foldl_process_style_of_none (catDf : List StatRow) (df : List TxRow)
    (table : List (String × ℕ)) :
    ∀ styles : List String,
    styles.foldl (process_style catDf df table) none = none := by
  intro styles
  induction styles with
  | nil => rfl
  | cons s rest ih =>
    simp only [List.foldl_cons, process_style]
    exact ih

theorem foldl_process_style_missing (catDf : List StatRow) (df : List TxRow)
    (table : List (String × ℕ)) :
    ∀ (styles : List String) (acc : Option (AllocState × List ℕ)),
    (∃ s ∈ styles, alookup s table = none) →
    styles.foldl (process_style catDf df table) acc = none := by
  intro styles
  induction styles with
  | nil =>
    intro acc h
    rcases h with ⟨s, hs, _⟩
    simp at hs
  | cons s0 rest ih =>
    intro acc h
    rcases h with ⟨s, hs, hnone⟩
    rcases List.mem_cons.mp hs with hs1 | hs1
    · subst hs1
      cases acc with
      | none =>
        simp only [List.foldl_cons, process_style]
        exact foldl_process_style_of_none catDf df table rest
      | some stp =>
        obtain ⟨st, pool⟩ := stp
        simp only [List.foldl_cons, process_style, hnone]
        exact foldl_process_style_of_none catDf df table rest
    · cases acc with
      | none =>
        simp only [List.foldl_cons, process_style]
        exact foldl_process_style_of_none catDf df table rest
      | some stp =>
        exact ih _ ⟨s, hs1, hnone⟩

/-- Claim C9 (implicit): when some requested style has no rows in the
transaction table restricted to the requested styles — including the
case where no requested style has any rows — allocate_operators raises
(the indexing of the first element of an empty selection), modelled as
the none result, instead of returning a plan. -/
theorem C9_missing_style_raises (catDf : List StatRow) (df : List TxRow)
    (operators : List ℕ) (styles : List String) (assigned0 : List ℕ)
    (s : String) (hs : s ∈ styles) (hrows : ∀ r ∈ df, r.st ≠ s) :
    allocate_operators catDf df operators styles assigned0 = none := by
  have hkey : alookup s (operator_allocation_table df styles operators.length) = none := by
    rw [alookup_none_iff, keys_operator_allocation_table, keys_style_operation_counts]
    intro hin
    have hin2 := List.mem_dedup.mp hin
    rcases List.mem_map.mp hin2 with ⟨r, hr, hrs⟩
    exact hrows r (List.mem_of_mem_filter hr) hrs
  unfold allocate_operators
  rw [foldl_process_style_missing catDf df _ styles _ ⟨s, hs, hkey⟩]

/-- Witness for C9 at a concrete input: requested style T has no
transaction rows, so the allocator raises (returns none). -/
theorem C9_missing_style_raises_witness :
    allocate_operators [⟨1, "S", "OP", 1, 1, 100⟩] [⟨"S", "OP", 10⟩]
      [1] ["S", "T"] [] = none :=
  C9_missing_style_raises _ _ _ _ _ "T" (by decide) (by decide)

/-! ### Assignment-engine lemmas (C3) -/

theorem statLe_total (a b : StatRow) : statLe a b = true ∨ statLe b a = true := by
  simp only [statLe, decide_eq_true_eq]
  rcases lt_trichotomy a.opFreq b.opFreq with h | h | h
  · exact Or.inl (Or.inl h)
  · rcases le_total a.weight b.weight with h2 | h2
    · exact Or.inl (Or.inr ⟨h, h2⟩)
    · exact Or.inr (Or.inr ⟨h.symm, h2⟩)
  · exact Or.inr (Or.inl h)

theorem statLe_trans (a b c : StatRow) :
    statLe a b = true → statLe b c = true → statLe a c = true := by
  simp only [statLe, decide_eq_true_eq]
  intro h1 h2
  rcases h1 with h1 | h1
  · rcases h2 with h2 | h2
    · exact Or.inl (h1.trans h2)
    · exact Or.inl (h2.1 ▸ h1)
  · rcases h2 with h2 | h2
    · exact Or.inl (h1.1 ▸ h2)
    · exact Or.inr ⟨h1.1.trans h2.1, h1.2.trans h2.2⟩

theorem sorted_take_drop {α : Type} {le : α → α → Bool}
    (htot : ∀ a b, le a b = true ∨ le b a = true)
    (htrans : ∀ a b c, le a b = true → le b c = true → le a c = true)
    (l : List α) (n : ℕ) :
    ∀ x ∈ (rankSort le l).take n, ∀ y ∈ (rankSort le l).drop n, le y x = true := by
  have hp := pairwise_rankSort htot htrans l
  rw [← List.take_append_drop n (rankSort le l)] at hp
  exact fun x hx y hy => (List.pairwise_append.mp hp).2.2 x hx y hy

theorem assign_to_operation_topRanked (catDf : List StatRow)
    (operation style : String) (operators : List ℕ) (numOperators : ℕ)
    (assigned : List ℕ) :
    TopRanked
      (catDf.filter fun r =>
        decide (r.pc = operation ∧ r.st = style ∧ r.em ∈ operators ∧ r.em ∉ assigned))
      numOperators
      (assign_to_operation catDf operation style operators numOperators assigned) := by
  refine ⟨(rankSort statLe
    (catDf.filter fun r =>
      decide (r.pc = operation ∧ r.st = style ∧ r.em ∈ operators ∧
        r.em ∉ assigned))).take numOperators, rfl, ?_, ?_, ?_, ?_⟩
  · rw [List.length_take, (perm_rankSort statLe _).length_eq]
  · intro r hr
    exact (perm_rankSort statLe _).mem_iff.mp (List.mem_of_mem_take hr)
  · exact (pairwise_rankSort statLe_total statLe_trans _).sublist (List.take_sublist _ _)
  · intro r hr hnot r0 hr0
    set L := rankSort statLe
      (catDf.filter fun r =>
        decide (r.pc = operation ∧ r.st = style ∧ r.em ∈ operators ∧
          r.em ∉ assigned)) with hL
    have hmem : r ∈ L := (perm_rankSort statLe _).mem_iff.mpr hr
    have hsplit : r ∈ L.take numOperators ∨ r ∈ L.drop numOperators := by
      refine List.mem_append.mp ?_
      rw [List.take_append_drop]
      exact hmem
    rcases hsplit with h | h
    · exact absurd h hnot
    · rw [hL] at hr0 h
      exact sorted_take_drop statLe_total statLe_trans _ numOperators r0 hr0 r h

theorem mem_assign_to_operation {catDf : List StatRow}
    {operation style : String} {operators : List ℕ} {numOperators : ℕ}
    {assigned : List ℕ} {x : ℕ}
    (h : x ∈ assign_to_operation catDf operation style operators numOperators assigned) :
    ∃ r ∈ catDf, r.em = x ∧ r.pc = operation ∧ r.st = style ∧
      x ∈ operators ∧ x ∉ assigned := by
  unfold assign_to_operation at h
  rcases List.mem_map.mp h with ⟨r, hr, hrx⟩
  have hr2 : r ∈ rankSort statLe _ := List.mem_of_mem_take hr
  have hr3 := (perm_rankSort statLe _).mem_iff.mp hr2
  rcases List.mem_filter.mp hr3 with ⟨hr4, hr5⟩
  have hr6 := of_decide_eq_true hr5
  exact ⟨r, hr4, hrx, hr6.1, hr6.2.1, hrx ▸ hr6.2.2.1, hrx ▸ hr6.2.2.2⟩

theorem assign_to_operation_nodup (catDf : List StatRow)
    (operation style : String) (operators : List ℕ) (numOperators : ℕ)
    (assigned : List ℕ)
    (hk : (catDf.map fun r => (r.st, r.pc, r.em)).Nodup) :
    (assign_to_operation catDf operation style operators numOperators assigned).Nodup := by
  have hcat : catDf.Nodup := List.Nodup.of_map _ hk
  have hX : ((rankSort statLe (catDf.filter fun r =>
      decide (r.pc = operation ∧ r.st = style ∧ r.em ∈ operators ∧ r.em ∉ assigned))).take
      numOperators).Nodup :=
    (((perm_rankSort statLe _).nodup_iff).mpr (hcat.filter _)).sublist
      (List.take_sublist _ _)
  show ((((rankSort statLe (catDf.filter fun r =>
    decide (r.pc = operation ∧ r.st = style ∧ r.em ∈ operators ∧
      r.em ∉ assigned))).take numOperators)).map (·.em)).Nodup
  refine List.Nodup.map_on ?_ hX
  intro x hx y hy hem
  have hxe := List.mem_filter.mp
    ((perm_rankSort statLe _).mem_iff.mp (List.mem_of_mem_take hx))
  have hye := List.mem_filter.mp
    ((perm_rankSort statLe _).mem_iff.mp (List.mem_of_mem_take hy))
  have hpx := of_decide_eq_true hxe.2
  have hpy := of_decide_eq_true hye.2
  refine List.inj_on_of_nodup_map hk hxe.1 hye.1 ?_
  show (x.st, x.pc, x.em) = (y.st, y.pc, y.em)
  rw [hpx.2.1, hpx.1, hpy.2.1, hpy.1, hem]

/-- Claim C3: the greedy pass records, for the processed operation,
exactly the top-ranked eligible operators for the clamped head count
h = max(1, min(7, ceil(opTime / sumT * |available|))): eligibility is a
statistics row for exactly this (style, operation) with the operator in
the available slice and outside the assigned set, the ranking key is
(Operation_Frequency desc, Normalized_Weightage desc), fewer eligible
rows than h yields all of them, and under unique record keys no operator
is listed twice. -/
theorem C3_assignment_engine (catDf : List StatRow) (style : String)
    (avail : List ℕ) (sumT : ℚ) (st : AllocState) (ot : String × ℚ)
    (hk : (catDf.map fun r => (r.st, r.pc, r.em)).Nodup) :
    ∃ res : List ℕ,
      alookup ot.1
        (lookupD style (allocate_one_operation catDf style avail sumT st ot).plan) =
        some res ∧
      res.Nodup ∧
      TopRanked
        (catDf.filter fun r =>
          decide (r.pc = ot.1 ∧ r.st = style ∧ r.em ∈ avail ∧ r.em ∉ st.assigned))
        (max 1 (min 7 (Int.toNat ⌈ot.2 / sumT * (avail.length : ℚ)⌉))) res := by
  rw [← headcount_eq]
  refine ⟨assign_to_operation catDf ot.1 style avail
    (headcount ot.2 sumT avail.length) st.assigned, ?_, ?_, ?_⟩
  · unfold allocate_one_operation lookupD
    simp [alookup_aset]
  · exact assign_to_operation_nodup _ _ _ _ _ _ hk
  · exact assign_to_operation_topRanked _ _ _ _ _ _

/-- Witness for C3 at the spec's tie example: two eligible operators
with equal Operation_Frequency 5 and Normalized_Weightage 0.3 versus
0.4 and head count 1; the plan entry is exactly the 0.4 operator. -/
theorem C3_assignment_engine_witness :
    (∃ res : List ℕ,
      alookup "X"
        (lookupD "S" (allocate_one_operation
          [⟨1, "S", "X", 5, mkRat 3 10, 100⟩, ⟨2, "S", "X", 5, mkRat 2 5, 100⟩]
          "S" [1, 2] 2 ⟨[], []⟩ ("X", 1)).plan) = some res ∧
      res.Nodup ∧
      TopRanked
        ([⟨1, "S", "X", 5, mkRat 3 10, 100⟩, ⟨2, "S", "X", 5, mkRat 2 5, 100⟩].filter fun r =>
          decide (r.pc = "X" ∧ r.st = "S" ∧ r.em ∈ [1, 2] ∧
            r.em ∉ (AllocState.mk [] []).assigned))
        (max 1 (min 7 (Int.toNat ⌈(("X", (1 : ℚ)).2 / 2 * (([1, 2] : List ℕ).length : ℚ))⌉)))
        res) ∧
    alookup "X"
      (lookupD "S" (allocate_one_operation
        [⟨1, "S", "X", 5, mkRat 3 10, 100⟩, ⟨2, "S", "X", 5, mkRat 2 5, 100⟩]
        "S" [1, 2] 2 ⟨[], []⟩ ("X", 1)).plan) = some [2] :=
  ⟨C3_assignment_engine
    [⟨1, "S", "X", 5, mkRat 3 10, 100⟩, ⟨2, "S", "X", 5, mkRat 2 5, 100⟩]
    "S" [1, 2] 2 ⟨[], []⟩ ("X", 1) (by decide), by decide⟩

/-! ### Plan-containment and monotonicity lemmas (C10, C1) -/

theorem lookupD_entry {st : AllocState} {style : String} {ol : String × List ℕ}
    (h : ol ∈ lookupD style st.plan) :
    ∃ m0, alookup style st.plan = some m0 ∧ ol ∈ m0 := by
  unfold lookupD at h
  cases halo : alookup style st.plan with
  | none => rw [halo] at h; simp at h
  | some m0 =>
    rw [halo] at h
    exact ⟨m0, rfl, by simpa using h⟩

theorem planSub_set_fresh {st : AllocState} {style op : String} {l : List ℕ}
    (hsub : PlanSub st) :
    PlanSub ⟨l ++ st.assigned,
      aset style (aset op l (lookupD style st.plan)) st.plan⟩ := by
  intro sm hsm ol hol x hx
  rcases mem_aset_val hsm with hv | hv
  · rw [hv] at hol
    rcases mem_aset_val hol with hv2 | hv2
    · rw [hv2] at hx
      exact List.mem_append.mpr (Or.inl hx)
    · rcases lookupD_entry hv2 with ⟨m0, hm0, holm⟩
      exact List.mem_append.mpr
        (Or.inr (hsub (style, m0) (mem_of_alookup hm0) ol holm x hx))
  · exact List.mem_append.mpr (Or.inr (hsub sm hv ol hol x hx))

theorem planSub_set_move {st : AllocState} {style op donor : String}
    {x : ℕ} {xs : List ℕ} (hsub : PlanSub st)
    (hdon : (donor, x :: xs) ∈ lookupD style st.plan) :
    PlanSub ⟨x :: st.assigned,
      aset style (aset op [x] (aset donor xs (lookupD style st.plan))) st.plan⟩ := by
  rcases lookupD_entry hdon with ⟨m0, hm0, hdonm⟩
  have hsubm : ∀ ol ∈ lookupD style st.plan, ∀ y ∈ ol.2, y ∈ st.assigned := by
    intro ol hol y hy
    rcases lookupD_entry hol with ⟨m1, hm1, holm⟩
    exact hsub (style, m1) (mem_of_alookup hm1) ol holm y hy
  intro sm hsm ol hol y hy
  rcases mem_aset_val hsm with hv | hv
  · rw [hv] at hol
    rcases mem_aset_val hol with hv2 | hv2
    · rw [hv2] at hy
      rcases List.mem_singleton.mp hy with h
      rw [h]
      exact List.mem_cons_self _ _
    · rcases mem_aset_val hv2 with hv3 | hv3
      · rw [hv3] at hy
        exact List.mem_cons_of_mem _
          (hsubm (donor, x :: xs) hdon y (List.mem_cons_of_mem _ hy))
      · exact List.mem_cons_of_mem _ (hsubm ol hv3 y hy)
  · exact List.mem_cons_of_mem _ (hsub sm hv ol hol y hy)

theorem planSub_reset {st : AllocState} {style : String} (hsub : PlanSub st) :
    PlanSub ⟨st.assigned, aset style [] st.plan⟩ := by
  intro sm hsm ol hol x hx
  rcases mem_aset_val hsm with hv | hv
  · rw [hv] at hol
    simp at hol
  · exact hsub sm hv ol hol x hx

theorem findFirstNonempty_mem : ∀ {m : OpMap} {d : String} {x : ℕ} {xs : List ℕ},
    findFirstNonempty m = some (d, x, xs) → (d, x :: xs) ∈ m := by
  intro m
  induction m with
  | nil => intro d x xs h; simp [findFirstNonempty] at h
  | cons e m ih =>
    intro d x xs h
    obtain ⟨k, l⟩ := e
    cases l with
    | nil =>
      simp only [findFirstNonempty] at h
      exact List.mem_cons_of_mem _ (ih h)
    | cons y ys =>
      simp only [findFirstNonempty, Option.some.injEq, Prod.mk.injEq] at h
      obtain ⟨rfl, rfl, rfl⟩ := h
      exact List.mem_cons_self _ _

theorem findFirstDonor_mem : ∀ {m : OpMap} {d : String} {x : ℕ} {xs : List ℕ},
    findFirstDonor m = some (d, x, xs) → (d, x :: xs) ∈ m ∧ xs ≠ [] := by
  intro m
  induction m with
  | nil => intro d x xs h; simp [findFirstDonor] at h
  | cons e m ih =>
    intro d x xs h
    obtain ⟨k, l⟩ := e
    match l with
    | [] =>
      simp only [findFirstDonor] at h
      rcases ih h with ⟨h1, h2⟩
      exact ⟨List.mem_cons_of_mem _ h1, h2⟩
    | [y] =>
      simp only [findFirstDonor] at h
      rcases ih h with ⟨h1, h2⟩
      exact ⟨List.mem_cons_of_mem _ h1, h2⟩
    | y :: z :: zs =>
      simp only [findFirstDonor, Option.some.injEq, Prod.mk.injEq] at h
      obtain ⟨rfl, rfl, rfl⟩ := h
      exact ⟨List.mem_cons_self _ _, by simp⟩

theorem planSub_allocate_one (catDf : List StatRow) (style : String)
    (avail : List ℕ) (sumT : ℚ) (st : AllocState) (ot : String × ℚ)
    (hsub : PlanSub st) :
    PlanSub (allocate_one_operation catDf style avail sumT st ot) ∧
      st.assigned ⊆ (allocate_one_operation catDf style avail sumT st ot).assigned := by
  constructor
  · exact planSub_set_fresh hsub
  · intro a ha
    exact List.mem_append.mpr (Or.inr ha)

theorem planSub_fill_tail (catDf : List StatRow) (style : String) (avail : List ℕ)
    (st : AllocState) (operation : String) (hsub : PlanSub st) :
    PlanSub
      (match get_unskilled_operators catDf operation style avail st.assigned with
      | r :: _ =>
        ({ assigned := r.em :: st.assigned,
           plan := aset style (aset operation [r.em] (lookupD style st.plan)) st.plan } : AllocState)
      | [] =>
        match findFirstNonempty (lookupD style st.plan) with
        | some (donor, x, xs) =>
          { assigned := x :: st.assigned,
            plan := aset style (aset operation [x]
              (aset donor xs (lookupD style st.plan))) st.plan }
        | none => st) ∧
      st.assigned ⊆
      (match get_unskilled_operators catDf operation style avail st.assigned with
      | r :: _ =>
        ({ assigned := r.em :: st.assigned,
           plan := aset style (aset operation [r.em] (lookupD style st.plan)) st.plan } : AllocState)
      | [] =>
        match findFirstNonempty (lookupD style st.plan) with
        | some (donor, x, xs) =>
          { assigned := x :: st.assigned,
            plan := aset style (aset operation [x]
              (aset donor xs (lookupD style st.plan))) st.plan }
        | none => st).assigned := by
  cases hunsk : get_unskilled_operators catDf operation style avail st.assigned with
  | cons r rest =>
    exact ⟨@planSub_set_fresh st style operation [r.em] hsub,
      fun a ha => List.mem_cons_of_mem _ ha⟩
  | nil =>
    cases hfind : findFirstNonempty (lookupD style st.plan) with
    | none => exact ⟨hsub, fun a ha => ha⟩
    | some dxx =>
      obtain ⟨donor, x, xs⟩ := dxx
      exact ⟨planSub_set_move hsub (findFirstNonempty_mem hfind),
        fun a ha => List.mem_cons_of_mem _ ha⟩

theorem planSub_fill_one (catDf : List StatRow) (style : String) (avail : List ℕ)
    (st : AllocState) (operation : String) (hsub : PlanSub st) :
    PlanSub (fill_one_operation catDf style avail st operation) ∧
      st.assigned ⊆ (fill_one_operation catDf style avail st operation).assigned := by
  unfold fill_one_operation
  cases halo : alookup operation (lookupD style st.plan) with
  | none => exact planSub_fill_tail catDf style avail st operation hsub
  | some l =>
    cases l with
    | nil => exact planSub_fill_tail catDf style avail st operation hsub
    | cons a tail => exact ⟨hsub, fun a ha => ha⟩

theorem planSub_ensure_step (style : String) (st : AllocState) (operation : String)
    (hsub : PlanSub st) :
    PlanSub (ensure_step style st operation) ∧
      st.assigned ⊆ (ensure_step style st operation).assigned := by
  unfold ensure_step
  cases halo : alookup operation (lookupD style st.plan) with
  | none => exact ⟨hsub, fun a ha => ha⟩
  | some l =>
    cases l with
    | cons a tail => exact ⟨hsub, fun a ha => ha⟩
    | nil =>
      unfold redistribute_operators
      cases hfind : findFirstDonor (lookupD style st.plan) with
      | none => exact ⟨hsub, fun a ha => ha⟩
      | some dxx =>
        obtain ⟨donor, x, xs⟩ := dxx
        exact ⟨planSub_set_move hsub (findFirstDonor_mem hfind).1,
          fun a ha => List.mem_cons_of_mem _ ha⟩

theorem foldl_state_inv {α : Type} {P : AllocState → Prop}
    {f : AllocState → α → AllocState}
    (hf : ∀ st a, P st → P (f st a) ∧ st.assigned ⊆ (f st a).assigned) :
    ∀ (l : List α) (st : AllocState), P st →
    P (l.foldl f st) ∧ st.assigned ⊆ (l.foldl f st).assigned := by
  intro l
  induction l with
  | nil => intro st h; exact ⟨h, fun a ha => ha⟩
  | cons x l ih =>
    intro st h
    rcases hf st x h with ⟨h1, h2⟩
    rcases ih (f st x) h1 with ⟨h3, h4⟩
    exact ⟨h3, fun a ha => h4 (h2 ha)⟩

theorem planSub_ensure_style (st : AllocState) (style : String) (hsub : PlanSub st) :
    PlanSub (ensure_style st style) ∧
      st.assigned ⊆ (ensure_style st style).assigned := by
  unfold ensure_style
  exact foldl_state_inv (fun s op h => planSub_ensure_step style s op h) _ st hsub

theorem planSub_ensure (st : AllocState) (hsub : PlanSub st) :
    PlanSub (ensure_no_empty_operations st) ∧
      st.assigned ⊆ (ensure_no_empty_operations st).assigned := by
  unfold ensure_no_empty_operations
  exact foldl_state_inv (fun s sty h => planSub_ensure_style s sty h) _ st hsub

theorem planSub_process_style (catDf : List StatRow) (df : List TxRow)
    (table : List (String × ℕ)) (st : AllocState) (pool : List ℕ) (style : String)
    (st2 : AllocState) (pool2 : List ℕ)
    (h : process_style catDf df table (some (st, pool)) style = some (st2, pool2))
    (hsub : PlanSub st) : PlanSub st2 ∧ st.assigned ⊆ st2.assigned := by
  unfold process_style at h
  cases halo : alookup style table with
  | none => rw [halo] at h; simp at h
  | some n =>
    rw [halo] at h
    simp only [Option.some.injEq, Prod.mk.injEq] at h
    obtain ⟨h1, _⟩ := h
    have hreset : PlanSub ({ st with plan := aset style [] st.plan } : AllocState) :=
      planSub_reset hsub
    have hfold := foldl_state_inv
      (fun s ot hh => planSub_allocate_one catDf style (pool.take n)
        (qsum ((operation_times df style).map (·.2))) s ot hh)
      (operation_times df style) _ hreset
    have hfill := foldl_state_inv
      (fun s op hh => planSub_fill_one catDf style (pool.take n) s op hh)
      ((operation_times df style).map (·.1)) _ hfold.1
    rw [← h1]
    exact ⟨hfill.1, fun a ha => hfill.2 (hfold.2 ha)⟩

theorem planSub_foldl_styles (catDf : List StatRow) (df : List TxRow)
    (table : List (String × ℕ)) :
    ∀ (styles : List String) (st : AllocState) (pool : List ℕ)
      (st2 : AllocState) (pool2 : List ℕ),
    styles.foldl (process_style catDf df table) (some (st, pool)) = some (st2, pool2) →
    PlanSub st → PlanSub st2 ∧ st.assigned ⊆ st2.assigned := by
  intro styles
  induction styles with
  | nil =>
    intro st pool st2 pool2 h hsub
    simp only [List.foldl_nil, Option.some.injEq, Prod.mk.injEq] at h
    obtain ⟨h1, _⟩ := h
    rw [← h1]
    exact ⟨hsub, fun a ha => ha⟩
  | cons s rest ih =>
    intro st pool st2 pool2 h hsub
    cases hstep : process_style catDf df table (some (st, pool)) s with
    | none =>
      rw [List.foldl_cons, hstep, foldl_process_style_of_none] at h
      simp at h
    | some stp =>
      obtain ⟨stm, poolm⟩ := stp
      rw [List.foldl_cons, hstep] at h
      rcases planSub_process_style catDf df table st pool s stm poolm hstep hsub with ⟨h1, h2⟩
      rcases ih stm poolm st2 pool2 h h1 with ⟨h3, h4⟩
      exact ⟨h3, fun a ha => h4 (h2 ha)⟩

/-! ### Structural-invariant lemmas (C1) -/

theorem planInv_lookupD_keys {st : AllocState} (style : String) (hinv : PlanInv st) :
    ((lookupD style st.plan).map Prod.fst).Nodup := by
  unfold lookupD
  cases h : alookup style st.plan with
  | none => simp
  | some m0 => simpa using hinv.keys2 (style, m0) (mem_of_alookup h)

theorem planInv_lookupD_sub {st : AllocState} (style : String) (hinv : PlanInv st) :
    ∀ ol ∈ lookupD style st.plan, ∀ x ∈ ol.2, x ∈ st.assigned := by
  intro ol hol x hx
  rcases lookupD_entry hol with ⟨m0, hm0, holm⟩
  exact hinv.sub (style, m0) (mem_of_alookup hm0) ol holm x hx

theorem planInv_lookupD_nodupL {st : AllocState} (style : String) (hinv : PlanInv st) :
    ∀ ol ∈ lookupD style st.plan, (ol.2 : List ℕ).Nodup := by
  intro ol hol
  rcases lookupD_entry hol with ⟨m0, hm0, holm⟩
  exact hinv.nodupL (style, m0) (mem_of_alookup hm0) ol holm

theorem planInv_lookupD_disj {st : AllocState} (style : String) (hinv : PlanInv st) :
    ∀ ol1 ∈ lookupD style st.plan, ∀ sm2 ∈ st.plan, ∀ ol2 ∈ sm2.2,
      (style, ol1.1) ≠ (sm2.1, ol2.1) → ∀ x ∈ ol1.2, x ∉ ol2.2 := by
  intro ol1 h1 sm2 h2 ol2 h3 hne x hx
  rcases lookupD_entry h1 with ⟨m0, hm0, holm⟩
  exact hinv.disj (style, m0) (mem_of_alookup hm0) ol1 holm sm2 h2 ol2 h3 hne x hx

theorem planInv_lookupD_disj2 {st : AllocState} (style : String) (hinv : PlanInv st) :
    ∀ ol1 ∈ lookupD style st.plan, ∀ ol2 ∈ lookupD style st.plan,
      ol1.1 ≠ ol2.1 → ∀ x ∈ ol1.2, x ∉ ol2.2 := by
  intro ol1 h1 ol2 h2 hne x hx
  rcases lookupD_entry h1 with ⟨m0, hm0, h1m⟩
  rcases lookupD_entry h2 with ⟨m1, hm1, h2m⟩
  rw [hm0] at hm1
  injection hm1 with hm1
  rw [← hm1] at h2m
  refine hinv.disj (style, m0) (mem_of_alookup hm0) ol1 h1m
    (style, m0) (mem_of_alookup hm0) ol2 h2m ?_ x hx
  intro heq
  rw [Prod.mk.injEq] at heq
  exact hne heq.2

theorem planInv_lookupD_uniq {st : AllocState} (style : String) (hinv : PlanInv st) :
    ∀ ol1 ∈ lookupD style st.plan, ∀ ol2 ∈ lookupD style st.plan,
      ol1.1 = ol2.1 → ol1 = ol2 := by
  intro ol1 h1 ol2 h2 hk
  obtain ⟨k1, v1⟩ := ol1
  obtain ⟨k2, v2⟩ := ol2
  simp only at hk
  subst hk
  have hmk := planInv_lookupD_keys style hinv
  have e1 : alookup k1 (lookupD style st.plan) = some v1 := alookup_eq_of_mem hmk h1
  have e2 : alookup k1 (lookupD style st.plan) = some v2 := alookup_eq_of_mem hmk h2
  rw [e1] at e2
  injection e2 with e2
  rw [e2]

theorem planInv_reset {st : AllocState} (style : String) (hinv : PlanInv st) :
    PlanInv ⟨st.assigned, aset style [] st.plan⟩ := by
  refine ⟨keys_aset_nodup _ hinv.keys1, ?_, ?_, ?_, planSub_reset hinv.sub⟩
  · intro sm hsm
    rcases mem_aset_val hsm with hv | hv
    · rw [hv]; simp
    · exact hinv.keys2 sm hv
  · intro sm hsm ol hol
    rcases mem_aset_val hsm with hv | hv
    · rw [hv] at hol; simp at hol
    · exact hinv.nodupL sm hv ol hol
  · intro sm1 h1 ol1 h2 sm2 h3 ol2 h4 hne x hx
    rcases mem_aset_val h1 with hv1 | hv1
    · rw [hv1] at h2; simp at h2
    · rcases mem_aset_val h3 with hv2 | hv2
      · rw [hv2] at h4; simp at h4
      · exact hinv.disj sm1 hv1 ol1 h2 sm2 hv2 ol2 h4 hne x hx

theorem planInv_set_fresh {st : AllocState} {style op : String} {l : List ℕ}
    (hinv : PlanInv st) (hl : l.Nodup) (hfresh : ∀ x ∈ l, x ∉ st.assigned) :
    PlanInv ⟨l ++ st.assigned,
      aset style (aset op l (lookupD style st.plan)) st.plan⟩ := by
  have hmk := planInv_lookupD_keys style hinv
  have hment := planInv_lookupD_sub style hinv
  have hdisjm := planInv_lookupD_disj style hinv
  have hdisj2 := planInv_lookupD_disj2 style hinv
  have hnodupm := planInv_lookupD_nodupL style hinv
  refine ⟨keys_aset_nodup _ hinv.keys1, ?_, ?_, ?_, planSub_set_fresh hinv.sub⟩
  · intro sm hsm
    rcases mem_aset_strong hinv.keys1 hsm with ⟨_, hv⟩ | ⟨hm, _⟩
    · rw [hv]
      exact keys_aset_nodup _ hmk
    · exact hinv.keys2 sm hm
  · intro sm hsm ol hol
    rcases mem_aset_strong hinv.keys1 hsm with ⟨_, hv⟩ | ⟨hm, _⟩
    · rw [hv] at hol
      rcases mem_aset_strong hmk hol with ⟨_, hv2⟩ | ⟨hm2, _⟩
      · rw [hv2]; exact hl
      · exact hnodupm ol hm2
    · exact hinv.nodupL sm hm ol hol
  · intro sm1 h1 ol1 h2 sm2 h3 ol2 h4 hne x hx
    rcases mem_aset_strong hinv.keys1 h1 with ⟨hk1, hv1⟩ | ⟨hm1, hk1⟩
    · rw [hv1] at h2
      rcases mem_aset_strong hmk h2 with ⟨hko1, hvo1⟩ | ⟨hmo1, hko1⟩
      · rw [hvo1] at hx
        have hxa : x ∉ st.assigned := hfresh x hx
        rcases mem_aset_strong hinv.keys1 h3 with ⟨hk2, hv2⟩ | ⟨hm2, hk2⟩
        · rw [hv2] at h4
          rcases mem_aset_strong hmk h4 with ⟨hko2, hvo2⟩ | ⟨hmo2, hko2⟩
          · exact absurd (by rw [hk1, hk2, hko1, hko2]) hne
          · exact fun hx2 => hxa (hment ol2 hmo2 x hx2)
        · exact fun hx2 => hxa (hinv.sub sm2 hm2 ol2 h4 x hx2)
      · rcases mem_aset_strong hinv.keys1 h3 with ⟨hk2, hv2⟩ | ⟨hm2, hk2⟩
        · rw [hv2] at h4
          rcases mem_aset_strong hmk h4 with ⟨hko2, hvo2⟩ | ⟨hmo2, hko2⟩
          · rw [hvo2]
            exact fun hx2 => hfresh x hx2 (hment ol1 hmo1 x hx)
          · refine hdisj2 ol1 hmo1 ol2 hmo2 ?_ x hx
            intro hkk
            exact hne (by rw [hk1, hk2, hkk])
        · refine hdisjm ol1 hmo1 sm2 hm2 ol2 h4 ?_ x hx
          intro heq
          rw [Prod.mk.injEq] at heq
          exact hne (by rw [hk1, heq.1, heq.2])
    · rcases mem_aset_strong hinv.keys1 h3 with ⟨hk2, hv2⟩ | ⟨hm2, hk2⟩
      · rw [hv2] at h4
        rcases mem_aset_strong hmk h4 with ⟨hko2, hvo2⟩ | ⟨hmo2, hko2⟩
        · rw [hvo2]
          exact fun hx2 => hfresh x hx2 (hinv.sub sm1 hm1 ol1 h2 x hx)
        · intro hx2
          refine hdisjm ol2 hmo2 sm1 hm1 ol1 h2 ?_ x hx2 hx
          intro heq
          rw [Prod.mk.injEq] at heq
          exact hk1 (hk2 ▸ heq.1.symm)
      · exact hinv.disj sm1 hm1 ol1 h2 sm2 hm2 ol2 h4 hne x hx

theorem planInv_set_move {st : AllocState} {style op donor : String}
    {x : ℕ} {xs : List ℕ} (hinv : PlanInv st)
    (hdon : (donor, x :: xs) ∈ lookupD style st.plan) :
    PlanInv ⟨x :: st.assigned,
      aset style (aset op [x] (aset donor xs (lookupD style st.plan))) st.plan⟩ := by
  have hmk := planInv_lookupD_keys style hinv
  have hmk2 : (((aset donor xs (lookupD style st.plan)).map Prod.fst)).Nodup :=
    keys_aset_nodup _ hmk
  have hment := planInv_lookupD_sub style hinv
  have hdisjm := planInv_lookupD_disj style hinv
  have hdisj2 := planInv_lookupD_disj2 style hinv
  have hnodupm := planInv_lookupD_nodupL style hinv
  have huniq := planInv_lookupD_uniq style hinv
  have hdnodup : (x :: xs).Nodup := hnodupm (donor, x :: xs) hdon
  have hxnotxs : x ∉ xs := (List.nodup_cons.mp hdnodup).1
  -- an entry of the inner aset is either the donor remainder or an old entry
  -- with a different key
  have hinner : ∀ ol ∈ aset donor xs (lookupD style st.plan),
      (ol.1 = donor ∧ ol.2 = xs) ∨ (ol ∈ lookupD style st.plan ∧ ol.1 ≠ donor) :=
    fun ol hol => mem_aset_strong hmk hol
  -- membership of x in an entry of the style map forces the donor entry
  have hxonly : ∀ ol ∈ lookupD style st.plan, x ∈ ol.2 → ol = (donor, x :: xs) := by
    intro ol hol hxol
    by_cases hkd : ol.1 = donor
    · exact huniq ol hol (donor, x :: xs) hdon hkd
    · exact absurd (List.mem_cons_self x xs)
        (hdisj2 ol hol (donor, x :: xs) hdon hkd x hxol)
  refine ⟨keys_aset_nodup _ hinv.keys1, ?_, ?_, ?_, planSub_set_move hinv.sub hdon⟩
  · intro sm hsm
    rcases mem_aset_strong hinv.keys1 hsm with ⟨_, hv⟩ | ⟨hm, _⟩
    · rw [hv]
      exact keys_aset_nodup _ hmk2
    · exact hinv.keys2 sm hm
  · intro sm hsm ol hol
    rcases mem_aset_strong hinv.keys1 hsm with ⟨_, hv⟩ | ⟨hm, _⟩
    · rw [hv] at hol
      rcases mem_aset_strong hmk2 hol with ⟨_, hv2⟩ | ⟨hm2, _⟩
      · rw [hv2]; exact List.nodup_singleton x
      · rcases hinner ol hm2 with ⟨_, hv3⟩ | ⟨hm3, _⟩
        · rw [hv3]; exact (List.nodup_cons.mp hdnodup).2
        · exact hnodupm ol hm3
    · exact hinv.nodupL sm hm ol hol
  · -- disjointness
    intro sm1 h1 ol1 h2 sm2 h3 ol2 h4 hne y hy
    -- membership of y in an entry of the NEW style map M2
    have hchar : ∀ ol ∈ aset op [x] (aset donor xs (lookupD style st.plan)), ∀ z, z ∈ ol.2 →
        (ol.1 = op ∧ ol.2 = [x] ∧ z = x) ∨
        (ol.1 = donor ∧ ol.2 = xs ∧ z ∈ xs ∧ ol.1 ≠ op) ∨
        (ol ∈ lookupD style st.plan ∧ ol.1 ≠ op ∧ ol.1 ≠ donor ∧ z ∈ ol.2) := by
      intro ol hol z hz
      rcases mem_aset_strong hmk2 hol with ⟨hko, hvo⟩ | ⟨hmo, hko⟩
      · rw [hvo] at hz
        exact Or.inl ⟨hko, hvo, List.mem_singleton.mp hz⟩
      · rcases hinner ol hmo with ⟨hkd, hvd⟩ | ⟨hmm, hkd⟩
        · rw [hvd] at hz
          exact Or.inr (Or.inl ⟨hkd, hvd, hz, hko⟩)
        · exact Or.inr (Or.inr ⟨hmm, hko, hkd, hz⟩)
    rcases mem_aset_strong hinv.keys1 h1 with ⟨hk1, hv1⟩ | ⟨hm1, hk1⟩
    · -- sm1 is the updated style entry
      rw [hv1] at h2
      rcases mem_aset_strong hinv.keys1 h3 with ⟨hk2, hv2⟩ | ⟨hm2, hk2⟩
      · -- both in the updated style entry
        rw [hv2] at h4
        have hne2 : ol1.1 ≠ ol2.1 := by
          intro hkk
          exact hne (by rw [hk1, hk2, hkk])
        rcases hchar ol1 h2 y hy with ⟨hka, _, hya⟩ | ⟨hka, _, hya, _⟩ | ⟨hma, hkao, hkad, hya⟩
        · -- y = x sits in the op entry; x is in no other new entry
          intro hy2
          rw [hya] at hy2
          rcases hchar ol2 h4 x hy2 with ⟨hkb, _, _⟩ | ⟨_, _, hyb, _⟩ | ⟨hmb, _, hkbd, hyb⟩
          · exact hne2 (by rw [hka, hkb])
          · exact hxnotxs hyb
          · exact hkbd (by rw [hxonly ol2 hmb hyb])
        · -- y in the donor remainder xs
          intro hy2
          rcases hchar ol2 h4 y hy2 with ⟨_, _, hyb⟩ | ⟨hkb, _, _, _⟩ | ⟨hmb, _, hkbd, hyb⟩
          · rw [hyb] at hya
            exact hxnotxs hya
          · exact hne2 (by rw [hka, hkb])
          · have hys : y ∈ (donor, x :: xs).2 := List.mem_cons_of_mem x hya
            exact hdisj2 (donor, x :: xs) hdon ol2 hmb (fun he => hkbd he.symm) y hys hyb
        · -- y in an untouched entry of the style map
          intro hy2
          rcases hchar ol2 h4 y hy2 with ⟨_, _, hyb⟩ | ⟨_, _, hyb, _⟩ | ⟨hmb, _, _, hyb⟩
          · rw [hyb] at hya
            exact hkad (by rw [hxonly ol1 hma hya])
          · have hys : y ∈ (donor, x :: xs).2 := List.mem_cons_of_mem x hyb
            exact hdisj2 ol1 hma (donor, x :: xs) hdon hkad y hya hys
          · exact hdisj2 ol1 hma ol2 hmb hne2 y hya hyb
      · -- sm2 is an old entry of a different style
        have hne1 : ∀ k : String, (style, k) ≠ (sm2.1, ol2.1) :=
          fun k he => hk2 ((Prod.mk.injEq _ _ _ _).mp he).1.symm
        rcases hchar ol1 h2 y hy with ⟨_, _, hya⟩ | ⟨_, _, hya, _⟩ | ⟨hma, _, _, hya⟩
        · rw [hya]
          exact hdisjm (donor, x :: xs) hdon sm2 hm2 ol2 h4 (hne1 donor)
            x (List.mem_cons_self x xs)
        · exact hdisjm (donor, x :: xs) hdon sm2 hm2 ol2 h4 (hne1 donor)
            y (List.mem_cons_of_mem x hya)
        · exact hdisjm ol1 hma sm2 hm2 ol2 h4 (hne1 ol1.1) y hya
    · -- sm1 is an old entry of a different style
      rcases mem_aset_strong hinv.keys1 h3 with ⟨hk2, hv2⟩ | ⟨hm2, hk2⟩
      · rw [hv2] at h4
        have hne1 : ∀ k : String, (style, k) ≠ (sm1.1, ol1.1) :=
          fun k he => hk1 ((Prod.mk.injEq _ _ _ _).mp he).1.symm
        intro hy2
        rcases hchar ol2 h4 y hy2 with ⟨_, _, hyb⟩ | ⟨_, _, hyb, _⟩ | ⟨hmb, _, _, hyb⟩
        · rw [hyb] at hy
          exact hdisjm (donor, x :: xs) hdon sm1 hm1 ol1 h2 (hne1 donor)
            x (List.mem_cons_self x xs) hy
        · exact hdisjm (donor, x :: xs) hdon sm1 hm1 ol1 h2 (hne1 donor)
            y (List.mem_cons_of_mem x hyb) hy
        · exact hdisjm ol2 hmb sm1 hm1 ol1 h2 (hne1 ol2.1) y hyb hy
      · exact hinv.disj sm1 hm1 ol1 h2 sm2 hm2 ol2 h4 hne y hy

theorem mem_get_unskilled {catDf : List StatRow} {operation style : String}
    {operators assigned : List ℕ} {r : StatRow}
    (h : r ∈ get_unskilled_operators catDf operation style operators assigned) :
    r ∈ catDf ∧ r.em ∈ operators ∧ r.em ∉ assigned ∧
      ¬(r.pc = operation ∧ r.st = style) := by
  unfold get_unskilled_operators at h
  have h2 := (perm_rankSort _ _).mem_iff.mp h
  rcases List.mem_filter.mp h2 with ⟨h3, h4⟩
  exact ⟨h3, of_decide_eq_true h4⟩

theorem planInv_allocate_one (catDf : List StatRow) (style : String)
    (avail : List ℕ) (sumT : ℚ) (st : AllocState) (ot : String × ℚ)
    (hk : (catDf.map fun r => (r.st, r.pc, r.em)).Nodup) (hinv : PlanInv st) :
    PlanInv (allocate_one_operation catDf style avail sumT st ot) := by
  have hfresh : ∀ x ∈ assign_to_operation catDf ot.1 style avail
      (headcount ot.2 sumT avail.length) st.assigned, x ∉ st.assigned := by
    intro x hx
    rcases mem_assign_to_operation hx with ⟨r, hr, h1, h2, h3, h4, h5⟩
    exact h5
  exact planInv_set_fresh hinv (assign_to_operation_nodup _ _ _ _ _ _ hk) hfresh

theorem planInv_fill_tail (catDf : List StatRow) (style : String) (avail : List ℕ)
    (st : AllocState) (operation : String) (hinv : PlanInv st) :
    PlanInv
      (match get_unskilled_operators catDf operation style avail st.assigned with
      | r :: _ =>
        ({ assigned := r.em :: st.assigned,
           plan := aset style (aset operation [r.em] (lookupD style st.plan)) st.plan } : AllocState)
      | [] =>
        match findFirstNonempty (lookupD style st.plan) with
        | some (donor, x, xs) =>
          { assigned := x :: st.assigned,
            plan := aset style (aset operation [x]
              (aset donor xs (lookupD style st.plan))) st.plan }
        | none => st) := by
  cases hunsk : get_unskilled_operators catDf operation style avail st.assigned with
  | cons r rest =>
    have hr : r ∈ get_unskilled_operators catDf operation style avail st.assigned := by
      rw [hunsk]
      exact List.mem_cons_self _ _
    have hfresh : ∀ x ∈ [r.em], x ∉ st.assigned := by
      intro x hx
      rw [List.mem_singleton.mp hx]
      exact (mem_get_unskilled hr).2.2.1
    exact planInv_set_fresh hinv (List.nodup_singleton _) hfresh
  | nil =>
    cases hfind : findFirstNonempty (lookupD style st.plan) with
    | none => exact hinv
    | some dxx =>
      obtain ⟨donor, x, xs⟩ := dxx
      exact planInv_set_move hinv (findFirstNonempty_mem hfind)

theorem planInv_fill_one (catDf : List StatRow) (style : String) (avail : List ℕ)
    (st : AllocState) (operation : String) (hinv : PlanInv st) :
    PlanInv (fill_one_operation catDf style avail st operation) := by
  unfold fill_one_operation
  cases halo : alookup operation (lookupD style st.plan) with
  | none => exact planInv_fill_tail catDf style avail st operation hinv
  | some l =>
    cases l with
    | nil => exact planInv_fill_tail catDf style avail st operation hinv
    | cons a tail => exact hinv

theorem planInv_ensure_step (style : String) (st : AllocState) (operation : String)
    (hinv : PlanInv st) : PlanInv (ensure_step style st operation) := by
  unfold ensure_step
  cases halo : alookup operation (lookupD style st.plan) with
  | none => exact hinv
  | some l =>
    cases l with
    | cons a tail => exact hinv
    | nil =>
      unfold redistribute_operators
      cases hfind : findFirstDonor (lookupD style st.plan) with
      | none => exact hinv
      | some dxx =>
        obtain ⟨donor, x, xs⟩ := dxx
        exact planInv_set_move hinv (findFirstDonor_mem hfind).1

theorem planInv_foldl_ops (catDf : List StatRow) (style : String)
    (avail : List ℕ) (sumT : ℚ)
    (hk : (catDf.map fun r => (r.st, r.pc, r.em)).Nodup) :
    ∀ (l : List (String × ℚ)) (st : AllocState), PlanInv st →
    PlanInv (l.foldl (allocate_one_operation catDf style avail sumT) st) := by
  intro l
  induction l with
  | nil => intro st h; exact h
  | cons a l ih =>
    intro st h
    exact ih _ (planInv_allocate_one catDf style avail sumT st a hk h)

theorem planInv_foldl_fill (catDf : List StatRow) (style : String)
    (avail : List ℕ) :
    ∀ (l : List String) (st : AllocState), PlanInv st →
    PlanInv (l.foldl (fill_one_operation catDf style avail) st) := by
  intro l
  induction l with
  | nil => intro st h; exact h
  | cons a l ih =>
    intro st h
    exact ih _ (planInv_fill_one catDf style avail st a h)

theorem planInv_process_style (catDf : List StatRow) (df : List TxRow)
    (table : List (String × ℕ)) (st : AllocState) (pool : List ℕ) (style : String)
    (st2 : AllocState) (pool2 : List ℕ)
    (hk : (catDf.map fun r => (r.st, r.pc, r.em)).Nodup)
    (h : process_style catDf df table (some (st, pool)) style = some (st2, pool2))
    (hinv : PlanInv st) : PlanInv st2 := by
  unfold process_style at h
  cases halo : alookup style table with
  | none => rw [halo] at h; simp at h
  | some n =>
    rw [halo] at h
    simp only [Option.some.injEq, Prod.mk.injEq] at h
    obtain ⟨h1, _⟩ := h
    have hreset : PlanInv ({ st with plan := aset style [] st.plan } : AllocState) :=
      planInv_reset style hinv
    have hfold := planInv_foldl_ops catDf style (pool.take n)
      (qsum ((operation_times df style).map (·.2))) hk
      (operation_times df style) _ hreset
    have hfill := planInv_foldl_fill catDf style (pool.take n)
      ((operation_times df style).map (·.1)) _ hfold
    rw [← h1]
    exact hfill

theorem planInv_foldl_styles (catDf : List StatRow) (df : List TxRow)
    (table : List (String × ℕ))
    (hk : (catDf.map fun r => (r.st, r.pc, r.em)).Nodup) :
    ∀ (styles : List String) (st : AllocState) (pool : List ℕ)
      (st2 : AllocState) (pool2 : List ℕ),
    styles.foldl (process_style catDf df table) (some (st, pool)) = some (st2, pool2) →
    PlanInv st → PlanInv st2 := by
  intro styles
  induction styles with
  | nil =>
    intro st pool st2 pool2 h hinv
    simp only [List.foldl_nil, Option.some.injEq, Prod.mk.injEq] at h
    obtain ⟨h1, _⟩ := h
    rw [← h1]
    exact hinv
  | cons s rest ih =>
    intro st pool st2 pool2 h hinv
    cases hstep : process_style catDf df table (some (st, pool)) s with
    | none =>
      rw [List.foldl_cons, hstep, foldl_process_style_of_none] at h
      simp at h
    | some stp =>
      obtain ⟨stm, poolm⟩ := stp
      rw [List.foldl_cons, hstep] at h
      exact ih stm poolm st2 pool2 h
        (planInv_process_style catDf df table st pool s stm poolm hk hstep hinv)

theorem planInv_foldl_ensure_step (sty : String) :
    ∀ (l : List String) (st : AllocState), PlanInv st →
    PlanInv (l.foldl (ensure_step sty) st) := by
  intro l
  induction l with
  | nil => intro st h; exact h
  | cons a l ih =>
    intro st h
    exact ih _ (planInv_ensure_step sty st a h)

theorem planInv_foldl_ensure_style :
    ∀ (l : List String) (st : AllocState), PlanInv st →
    PlanInv (l.foldl ensure_style st) := by
  intro l
  induction l with
  | nil => intro st h; exact h
  | cons a l ih =>
    intro st h
    refine ih _ ?_
    unfold ensure_style
    exact planInv_foldl_ensure_step a _ st h

theorem planInv_ensure (st : AllocState) (hinv : PlanInv st) :
    PlanInv (ensure_no_empty_operations st) := by
  unfold ensure_no_empty_operations
  exact planInv_foldl_ensure_style _ st hinv

theorem planInv_initial (assigned0 : List ℕ) :
    PlanInv ⟨assigned0, []⟩ := by
  refine ⟨List.nodup_nil, ?_, ?_, ?_, ?_⟩
  · intro sm hsm; simp at hsm
  · intro sm hsm; simp at hsm
  · intro sm hsm; simp at hsm
  · intro sm hsm; simp at hsm

/-- Claim C1: global uniqueness.  Under the documented key structure of
the statistics table (records keyed by (style, operation, operator), so
no duplicate key triples), the structural invariant — in particular that
no operator key appears in the lists of two distinct (style, operation)
entries — is preserved by every iteration of the greedy pass, of the gap
filler and of the redistribution sweep, and the plan returned by
allocate_operators satisfies global uniqueness. -/
theorem C1_global_uniqueness :
    (∀ (catDf : List StatRow) (style : String) (avail : List ℕ) (sumT : ℚ)
        (st : AllocState) (ot : String × ℚ),
      (catDf.map fun r => (r.st, r.pc, r.em)).Nodup → PlanInv st →
      PlanInv (allocate_one_operation catDf style avail sumT st ot)) ∧
    (∀ (catDf : List StatRow) (style : String) (avail : List ℕ)
        (st : AllocState) (operation : String), PlanInv st →
      PlanInv (fill_one_operation catDf style avail st operation)) ∧
    (∀ (style : String) (st : AllocState) (operation : String), PlanInv st →
      PlanInv (ensure_step style st operation)) ∧
    (∀ (catDf : List StatRow) (df : List TxRow) (operators : List ℕ)
        (styles : List String) (assigned0 : List ℕ) (plan : Plan) (assigned1 : List ℕ),
      (catDf.map fun r => (r.st, r.pc, r.em)).Nodup →
      allocate_operators catDf df operators styles assigned0 = some (plan, assigned1) →
      PlanDisjoint plan) := by
  refine ⟨fun catDf style avail sumT st ot hk hinv =>
      planInv_allocate_one catDf style avail sumT st ot hk hinv,
    fun catDf style avail st operation hinv =>
      planInv_fill_one catDf style avail st operation hinv,
    fun style st operation hinv => planInv_ensure_step style st operation hinv,
    ?_⟩
  intro catDf df operators styles assigned0 plan assigned1 hk h
  unfold allocate_operators at h
  cases hfold : styles.foldl
      (process_style catDf df (operator_allocation_table df styles operators.length))
      (some ({ assigned := assigned0, plan := [] }, operators)) with
  | none => rw [hfold] at h; simp at h
  | some stp =>
    obtain ⟨stf, poolf⟩ := stp
    rw [hfold] at h
    simp only [Option.some.injEq, Prod.mk.injEq] at h
    obtain ⟨h1, _⟩ := h
    have hstf : PlanInv stf :=
      planInv_foldl_styles catDf df _ hk styles ⟨assigned0, []⟩ operators stf poolf
        hfold (planInv_initial assigned0)
    rw [← h1]
    exact (planInv_ensure stf hstf).disj

/-- Witness for C1 at a concrete full run. -/
theorem C1_global_uniqueness_witness :
    PlanDisjoint [("S", [("OP", [1])])] :=
  C1_global_uniqueness.2.2.2 [⟨1, "S", "OP", 1, 1, 100⟩] [⟨"S", "OP", 10⟩]
    [1] ["S"] [] [("S", [("OP", [1])])] [1] (by decide) (by decide)

/-- Claim C10 (implicit): the assigned-operator set only grows — no
iteration of the greedy pass, of the gap filler or of the redistribution
sweep removes a key (moved operators are re-added, never released) — and
every operator key appearing in any plan entry is a member of the
assigned set, both step by step and in the final result of
allocate_operators. -/
theorem C10_assignedSet_monotone :
    (∀ (catDf : List StatRow) (style : String) (avail : List ℕ) (sumT : ℚ)
        (st : AllocState) (ot : String × ℚ), PlanSub st →
      PlanSub (allocate_one_operation catDf style avail sumT st ot) ∧
        st.assigned ⊆ (allocate_one_operation catDf style avail sumT st ot).assigned) ∧
    (∀ (catDf : List StatRow) (style : String) (avail : List ℕ)
        (st : AllocState) (operation : String), PlanSub st →
      PlanSub (fill_one_operation catDf style avail st operation) ∧
        st.assigned ⊆ (fill_one_operation catDf style avail st operation).assigned) ∧
    (∀ (style : String) (st : AllocState) (operation : String), PlanSub st →
      PlanSub (ensure_step style st operation) ∧
        st.assigned ⊆ (ensure_step style st operation).assigned) ∧
    (∀ (catDf : List StatRow) (df : List TxRow) (operators : List ℕ)
        (styles : List String) (assigned0 : List ℕ) (plan : Plan) (assigned1 : List ℕ),
      allocate_operators catDf df operators styles assigned0 = some (plan, assigned1) →
      assigned0 ⊆ assigned1 ∧ ∀ sm ∈ plan, ∀ ol ∈ sm.2, ∀ x ∈ ol.2, x ∈ assigned1) := by
  refine ⟨planSub_allocate_one, planSub_fill_one, planSub_ensure_step, ?_⟩
  intro catDf df operators styles assigned0 plan assigned1 h
  unfold allocate_operators at h
  cases hfold : styles.foldl
      (process_style catDf df (operator_allocation_table df styles operators.length))
      (some ({ assigned := assigned0, plan := [] }, operators)) with
  | none => rw [hfold] at h; simp at h
  | some stp =>
    obtain ⟨stf, poolf⟩ := stp
    rw [hfold] at h
    simp only [Option.some.injEq, Prod.mk.injEq] at h
    obtain ⟨h1, h2⟩ := h
    have hinit : PlanSub ⟨assigned0, []⟩ := by
      intro sm hsm
      simp at hsm
    rcases planSub_foldl_styles catDf df _ styles ⟨assigned0, []⟩ operators stf poolf
      hfold hinit with ⟨h3, h4⟩
    rcases planSub_ensure stf h3 with ⟨h5, h6⟩
    rw [← h1, ← h2]
    exact ⟨fun a ha => h6 (h4 ha), fun sm hsm ol hol x hx => h5 sm hsm ol hol x hx⟩

/-- Witness for C10 at a concrete full run. -/
theorem C10_assignedSet_monotone_witness :
    ([] : List ℕ) ⊆ [1] ∧
      ∀ sm ∈ ([("S", [("OP", [1])])] : Plan), ∀ ol ∈ sm.2, ∀ x ∈ ol.2, x ∈ [1] :=
  C10_assignedSet_monotone.2.2.2 [⟨1, "S", "OP", 1, 1, 100⟩] [⟨"S", "OP", 10⟩]
    [1] ["S"] [] [("S", [("OP", [1])])] [1] (by decide)

/-! ### Determinism and instance state (C8) -/

/-- Counterexample for C8 as stated: allocate_operators is re-run with
the assigned-operator set left on the instance by the first run (only
__init__ resets it); the second run returns a different plan, so
re-running the pipeline on one OperatorAllocator instance is not
idempotent and the core does persist state between invocations. -/
theorem C8_same_instance_rerun_differs :
    allocate_operators [⟨1, "S", "OP", 1, 1, 100⟩] [⟨"S", "OP", 10⟩] [1] ["S"] []
      = some ([("S", [("OP", [1])])], [1]) ∧
    allocate_operators [⟨1, "S", "OP", 1, 1, 100⟩] [⟨"S", "OP", 10⟩] [1] ["S"] [1]
      = some ([("S", [("OP", [])])], [1]) ∧
    ([("S", [("OP", [1])])] : Plan) ≠ [("S", [("OP", [])])] :=
  ⟨by decide, by decide, by decide⟩

/-- Claim C8 as amended: the pipeline is a pure function of its explicit
inputs together with the instance's persisted assigned set — equal
inputs and equal persisted state give bit-identical plans and
efficiency mappings, so re-running on a fresh OperatorAllocator instance
reproduces the result exactly; re-running on the same instance is not
covered, since the assigned set persists between invocations. -/
theorem C8_pipeline_deterministic (catDf1 catDf2 : List StatRow)
    (df1 df2 : List TxRow) (ops1 ops2 : List ℕ) (sty1 sty2 : List String)
    (a1 a2 : List ℕ) (h1 : catDf1 = catDf2) (h2 : df1 = df2) (h3 : ops1 = ops2)
    (h4 : sty1 = sty2) (h5 : a1 = a2) :
    run_pipeline catDf1 df1 ops1 sty1 a1 = run_pipeline catDf2 df2 ops2 sty2 a2 := by
  rw [h1, h2, h3, h4, h5]

/-- Witness for C8 (amended) at a concrete input. -/
theorem C8_pipeline_deterministic_witness :
    run_pipeline [⟨1, "S", "OP", 1, 1, 100⟩] [⟨"S", "OP", 10⟩] [1] ["S"] [] =
      run_pipeline [⟨1, "S", "OP", 1, 1, 100⟩] [⟨"S", "OP", 10⟩] [1] ["S"] [] :=
  C8_pipeline_deterministic _ _ _ _ _ _ _ _ _ _ rfl rfl rfl rfl rfl

/-! ### Operation prioritization model (C4) -/

/-- For C4: the modelled priority list is sorted by non-increasing mean
standard time and contains no operation equal to one of the two
uppercase quality-check labels of the source line; a lowercase
quality-check label is retained untouched, so the exclusion is not a
case-insensitive match — and the source line itself (line 56 of
operator_allocator.py) is not syntactically valid Python at all. -/
theorem C4_operation_times_model :
    (∀ (df : List TxRow) (style : String),
      ((operation_times df style).map Prod.snd).Pairwise (fun a b => b ≤ a) ∧
      ∀ op ∈ (operation_times df style).map Prod.fst, op ∉ qcLabels) ∧
    operation_times [⟨"A", "quality check", 10⟩] "A" = [("quality check", 10)] := by
  constructor
  · intro df style
    constructor
    · rw [List.pairwise_map]
      refine List.Pairwise.imp ?_
        (@pairwise_rankSort (String × ℚ) (fun a b => decide (a.2 ≤ b.2))
          (fun a b => ?_) (fun a b c h1 h2 => ?_) _)
      · exact fun h => of_decide_eq_true h
      · rcases le_total a.2 b.2 with h | h
        · exact Or.inl (decide_eq_true h)
        · exact Or.inr (decide_eq_true h)
      · exact decide_eq_true ((of_decide_eq_true h1).trans (of_decide_eq_true h2))
    · intro op hop
      unfold operation_times at hop
      rcases List.mem_map.mp hop with ⟨p, hp, hfst⟩
      have hp2 := (perm_rankSort _ _).mem_iff.mp hp
      rcases List.mem_map.mp hp2 with ⟨o, ho, hoe⟩
      have ho2 := List.mem_dedup.mp ho
      rcases List.mem_map.mp ho2 with ⟨r, hr, hrpc⟩
      rcases List.mem_filter.mp hr with ⟨_, hrp⟩
      have hrp2 := of_decide_eq_true hrp
      rw [← hfst, ← hoe]
      simp only
      rw [← hrpc]
      exact hrp2.2
  · decide

/-! ### Redistributor lemmas (C6) -/

theorem findFirstDonor_none : ∀ {m : OpMap},
    findFirstDonor m = none ↔ ∀ e ∈ m, e.2.length ≤ 1 := by
  intro m
  induction m with
  | nil => simp [findFirstDonor]
  | cons e m ih =>
    obtain ⟨k, l⟩ := e
    match l with
    | [] =>
      simp only [findFirstDonor, ih, List.mem_cons]
      constructor
      · intro h e he
        rcases he with he | he
        · rw [he]; simp
        · exact h e he
      · intro h e he
        exact h e (Or.inr he)
    | [y] =>
      simp only [findFirstDonor, ih, List.mem_cons]
      constructor
      · intro h e he
        rcases he with he | he
        · rw [he]; simp
        · exact h e he
      · intro h e he
        exact h e (Or.inr he)
    | y :: z :: zs =>
      simp only [findFirstDonor]
      constructor
      · intro h
        exact absurd h (by simp)
      · intro h
        have h2 := h (k, y :: z :: zs) (List.mem_cons_self _ _)
        simp at h2

theorem findFirstDonor_decomp : ∀ {m : OpMap} {d : String} {x : ℕ} {xs : List ℕ},
    findFirstDonor m = some (d, x, xs) →
    ∃ pre suf, m = pre ++ (d, x :: xs) :: suf ∧
      (∀ e ∈ pre, e.2.length ≤ 1) ∧ xs ≠ [] := by
  intro m
  induction m with
  | nil => intro d x xs h; simp [findFirstDonor] at h
  | cons e m ih =>
    intro d x xs h
    obtain ⟨k, l⟩ := e
    match l with
    | [] =>
      simp only [findFirstDonor] at h
      rcases ih h with ⟨pre, suf, h1, h2, h3⟩
      refine ⟨(k, []) :: pre, suf, by rw [h1, List.cons_append], ?_, h3⟩
      intro e he
      rcases List.mem_cons.mp he with he | he
      · rw [he]; simp
      · exact h2 e he
    | [y] =>
      simp only [findFirstDonor] at h
      rcases ih h with ⟨pre, suf, h1, h2, h3⟩
      refine ⟨(k, [y]) :: pre, suf, by rw [h1, List.cons_append], ?_, h3⟩
      intro e he
      rcases List.mem_cons.mp he with he | he
      · rw [he]; simp
      · exact h2 e he
    | y :: z :: zs =>
      simp only [findFirstDonor, Option.some.injEq, Prod.mk.injEq] at h
      obtain ⟨rfl, rfl, rfl⟩ := h
      exact ⟨[], m, rfl, by simp, by simp⟩

theorem findFirstNonempty_none : ∀ {m : OpMap},
    findFirstNonempty m = none ↔ ∀ e ∈ m, e.2 = [] := by
  intro m
  induction m with
  | nil => simp [findFirstNonempty]
  | cons e m ih =>
    obtain ⟨k, l⟩ := e
    cases l with
    | nil =>
      simp only [findFirstNonempty, ih, List.mem_cons]
      constructor
      · intro h e he
        rcases he with he | he
        · rw [he]
        · exact h e he
      · intro h e he
        exact h e (Or.inr he)
    | cons y ys =>
      simp only [findFirstNonempty]
      constructor
      · intro h
        exact absurd h (by simp)
      · intro h
        have h2 := h (k, y :: ys) (List.mem_cons_self _ _)
        simp at h2

theorem findFirstNonempty_decomp : ∀ {m : OpMap} {d : String} {x : ℕ} {xs : List ℕ},
    findFirstNonempty m = some (d, x, xs) →
    ∃ pre suf, m = pre ++ (d, x :: xs) :: suf ∧ ∀ e ∈ pre, e.2 = [] := by
  intro m
  induction m with
  | nil => intro d x xs h; simp [findFirstNonempty] at h
  | cons e m ih =>
    intro d x xs h
    obtain ⟨k, l⟩ := e
    cases l with
    | nil =>
      simp only [findFirstNonempty] at h
      rcases ih h with ⟨pre, suf, h1, h2⟩
      refine ⟨(k, []) :: pre, suf, by rw [h1, List.cons_append], ?_⟩
      intro e he
      rcases List.mem_cons.mp he with he | he
      · rw [he]
      · exact h2 e he
    | cons y ys =>
      simp only [findFirstNonempty, Option.some.injEq, Prod.mk.injEq] at h
      obtain ⟨rfl, rfl, rfl⟩ := h
      exact ⟨[], m, rfl, by simp⟩

theorem ensure_step_plan_other (sty2 style : String) (s : AllocState) (op : String)
    (hne : sty2 ≠ style) :
    lookupD style (ensure_step sty2 s op).plan = lookupD style s.plan := by
  unfold ensure_step
  cases h1 : alookup op (lookupD sty2 s.plan) with
  | none => rfl
  | some l =>
    cases l with
    | cons a t => rfl
    | nil =>
      unfold redistribute_operators
      cases h2 : findFirstDonor (lookupD sty2 s.plan) with
      | none => rfl
      | some dxx =>
        obtain ⟨d, x, xs⟩ := dxx
        unfold lookupD
        rw [alookup_aset, if_neg hne]

theorem ensure_step_plan_same_capped (style : String) (s : AllocState) (op : String)
    (hcap : ∀ e ∈ lookupD style s.plan, e.2.length ≤ 1) :
    ensure_step style s op = s := by
  unfold ensure_step
  cases h1 : alookup op (lookupD style s.plan) with
  | none => rfl
  | some l =>
    cases l with
    | cons a t => rfl
    | nil =>
      unfold redistribute_operators
      rw [findFirstDonor_none.mpr hcap]

theorem foldl_ensure_step_capped (style sty2 : String) (M0 : OpMap)
    (hcap : ∀ e ∈ M0, e.2.length ≤ 1) :
    ∀ (l : List String) (s : AllocState), lookupD style s.plan = M0 →
    lookupD style (l.foldl (ensure_step sty2) s).plan = M0 := by
  intro l
  induction l with
  | nil => intro s h; exact h
  | cons a l ih =>
    intro s h
    rw [List.foldl_cons]
    by_cases he : sty2 = style
    · subst he
      refine ih _ ?_
      rw [ensure_step_plan_same_capped sty2 s a (by rw [h]; exact hcap)]
      exact h
    · refine ih _ ?_
      rw [ensure_step_plan_other sty2 style s a he, h]

theorem foldl_ensure_style_capped (style : String) (M0 : OpMap)
    (hcap : ∀ e ∈ M0, e.2.length ≤ 1) :
    ∀ (l : List String) (s : AllocState), lookupD style s.plan = M0 →
    lookupD style (l.foldl ensure_style s).plan = M0 := by
  intro l
  induction l with
  | nil => intro s h; exact h
  | cons a l ih =>
    intro s h
    rw [List.foldl_cons]
    refine ih _ ?_
    unfold ensure_style
    exact foldl_ensure_step_capped style a M0 hcap _ s h

theorem ensure_preserves_capped_style (st : AllocState) (style : String)
    (hcap : ∀ e ∈ lookupD style st.plan, e.2.length ≤ 1) :
    lookupD style (ensure_no_empty_operations st).plan = lookupD style st.plan := by
  unfold ensure_no_empty_operations
  exact foldl_ensure_style_capped style (lookupD style st.plan) hcap _ st rfl

/-- Claim C6: during the final sweep, an operation visited with an empty
list receives the first operator removed from the first operation of the
same style holding strictly more than one operator (every earlier
operation of the style holds at most one); when no operation of the
style holds more than one operator, the sweep step leaves the state
untouched (no error is modelled or possible) and the operation's list is
still empty in the plan returned after the whole sweep. -/
theorem C6_redistributor (st : AllocState) (style operation : String)
    (hkeys : ((lookupD style st.plan).map Prod.fst).Nodup)
    (hemp : alookup operation (lookupD style st.plan) = some []) :
    ((∃ e ∈ lookupD style st.plan, 1 < e.2.length) →
      ∃ donor x xs pre suf,
        lookupD style st.plan = pre ++ (donor, x :: xs) :: suf ∧
        (∀ e ∈ pre, e.2.length ≤ 1) ∧ xs ≠ [] ∧
        alookup operation
          (lookupD style (ensure_step style st operation).plan) = some [x] ∧
        alookup donor
          (lookupD style (ensure_step style st operation).plan) = some xs) ∧
    ((∀ e ∈ lookupD style st.plan, e.2.length ≤ 1) →
      ensure_step style st operation = st ∧
      alookup operation
        (lookupD style (ensure_no_empty_operations st).plan) = some []) := by
  constructor
  · intro hex
    cases hfind : findFirstDonor (lookupD style st.plan) with
    | none =>
      rcases hex with ⟨e, he, hlen⟩
      have h2 := findFirstDonor_none.mp hfind e he
      omega
    | some dxx =>
      obtain ⟨donor, x, xs⟩ := dxx
      rcases findFirstDonor_decomp hfind with ⟨pre, suf, hdec, hpre, hxs⟩
      have hdonm : (donor, x :: xs) ∈ lookupD style st.plan := by
        rw [hdec]
        exact List.mem_append.mpr (Or.inr (List.mem_cons_self _ _))
      have hdlook : alookup donor (lookupD style st.plan) = some (x :: xs) :=
        alookup_eq_of_mem hkeys hdonm
      have hdne : ¬ operation = donor := by
        intro he
        rw [← he, hemp] at hdlook
        simp at hdlook
      have hstep : ensure_step style st operation =
          ⟨x :: st.assigned, aset style (aset operation [x]
            (aset donor xs (lookupD style st.plan))) st.plan⟩ := by
        unfold ensure_step
        rw [hemp]
        unfold redistribute_operators
        rw [hfind]
      refine ⟨donor, x, xs, pre, suf, hdec, hpre, hxs, ?_, ?_⟩
      · rw [hstep]
        unfold lookupD
        simp [alookup_aset]
      · rw [hstep]
        unfold lookupD
        simp [alookup_aset, hdne]
  · intro hcap
    have hid : ensure_step style st operation = st := by
      unfold ensure_step
      rw [hemp]
      unfold redistribute_operators
      rw [findFirstDonor_none.mpr hcap]
    refine ⟨hid, ?_⟩
    rw [ensure_preserves_capped_style st style hcap]
    exact hemp

/-- Witness for C6 at a concrete state: style S holds X with one
operator and Y empty; no donor with more than one operator exists, so
the sweep leaves Y empty in the returned plan. -/
theorem C6_redistributor_witness :
    ensure_step "S" ⟨[1], [("S", [("X", [1]), ("Y", [])])]⟩ "Y" =
      ⟨[1], [("S", [("X", [1]), ("Y", [])])]⟩ ∧
    alookup "Y" (lookupD "S"
      (ensure_no_empty_operations ⟨[1], [("S", [("X", [1]), ("Y", [])])]⟩).plan) =
      some [] :=
  (C6_redistributor ⟨[1], [("S", [("X", [1]), ("Y", [])])]⟩ "S" "Y"
    (by decide) (by decide)).2 (by decide)

/-! ### Gap-filler lemmas (C5) -/

theorem weightLe_total (a b : StatRow) :
    decide (a.weight ≤ b.weight) = true ∨ decide (b.weight ≤ a.weight) = true := by
  rcases le_total a.weight b.weight with h | h
  · exact Or.inl (decide_eq_true h)
  · exact Or.inr (decide_eq_true h)

theorem weightLe_trans (a b c : StatRow) :
    decide (a.weight ≤ b.weight) = true → decide (b.weight ≤ c.weight) = true →
    decide (a.weight ≤ c.weight) = true := by
  intro h1 h2
  exact decide_eq_true ((of_decide_eq_true h1).trans (of_decide_eq_true h2))

theorem assign_to_operation_ne_nil {catDf : List StatRow} {operation style : String}
    {operators : List ℕ} {n : ℕ} {assigned : List ℕ} {r : StatRow}
    (hr : r ∈ catDf) (hpc : r.pc = operation) (hst : r.st = style)
    (hop : r.em ∈ operators) (hna : r.em ∉ assigned) (hn : 1 ≤ n) :
    assign_to_operation catDf operation style operators n assigned ≠ [] := by
  unfold assign_to_operation
  intro h
  rw [List.map_eq_nil_iff, List.take_eq_nil_iff] at h
  have hmem : r ∈ rankSort statLe (catDf.filter fun r =>
      decide (r.pc = operation ∧ r.st = style ∧ r.em ∈ operators ∧ r.em ∉ assigned)) :=
    (perm_rankSort _ _).mem_iff.mpr
      (List.mem_filter.mpr ⟨hr, decide_eq_true ⟨hpc, hst, hop, hna⟩⟩)
  rcases h with h | h
  · omega
  · rw [h] at hmem
    simp at hmem

theorem fill_one_eval (catDf : List StatRow) (style : String) (avail : List ℕ)
    (st : AllocState) (operation : String)
    (hemp : alookup operation (lookupD style st.plan) = some [] ∨
      alookup operation (lookupD style st.plan) = none) :
    fill_one_operation catDf style avail st operation =
      match get_unskilled_operators catDf operation style avail st.assigned with
      | r :: _ =>
        ({ assigned := r.em :: st.assigned,
           plan := aset style (aset operation [r.em] (lookupD style st.plan)) st.plan } : AllocState)
      | [] =>
        match findFirstNonempty (lookupD style st.plan) with
        | some (donor, x, xs) =>
          { assigned := x :: st.assigned,
            plan := aset style (aset operation [x]
              (aset donor xs (lookupD style st.plan))) st.plan }
        | none => st := by
  unfold fill_one_operation
  rcases hemp with hemp | hemp <;> rw [hemp]

/-- Claim C5: for an operation left with an empty (or missing) entry by
a greedy pass that produced nothing, the gap filler first assigns
exactly one unskilled candidate — an available, unassigned operator with
no statistics record for this exact (style, operation) pair — of maximal
Normalized_Weightage, when any candidate exists; otherwise it scans the
style's mapping in insertion order, removes the first (earliest) operator
of the first operation holding at least one, and moves it to the empty
operation, with no check that the donor keeps a non-empty list. -/
theorem C5_gap_filler (catDf : List StatRow) (style : String) (avail : List ℕ)
    (st : AllocState) (operation : String) (n : ℕ)
    (hkeys : ((lookupD style st.plan).map Prod.fst).Nodup)
    (hemp : alookup operation (lookupD style st.plan) = some [] ∨
      alookup operation (lookupD style st.plan) = none)
    (hn : 1 ≤ n)
    (hgreedy : assign_to_operation catDf operation style avail n st.assigned = []) :
    ((∃ r ∈ catDf, UnskilledCandidate style operation avail st.assigned r) →
      ∃ rb ∈ catDf, UnskilledCandidate style operation avail st.assigned rb ∧
        NoMatchingRecord catDf style operation rb.em ∧
        alookup operation
          (lookupD style (fill_one_operation catDf style avail st operation).plan) =
          some [rb.em] ∧
        ∀ r2 ∈ catDf, UnskilledCandidate style operation avail st.assigned r2 →
          r2.weight ≤ rb.weight) ∧
    ((∀ r ∈ catDf, ¬ UnskilledCandidate style operation avail st.assigned r) →
      ((∀ e ∈ lookupD style st.plan, e.2 = []) →
        fill_one_operation catDf style avail st operation = st) ∧
      (∀ d x xs, findFirstNonempty (lookupD style st.plan) = some (d, x, xs) →
        ∃ pre suf, lookupD style st.plan = pre ++ (d, x :: xs) :: suf ∧
          (∀ e ∈ pre, e.2 = []) ∧
          alookup operation
            (lookupD style (fill_one_operation catDf style avail st operation).plan) =
            some [x] ∧
          alookup d
            (lookupD style (fill_one_operation catDf style avail st operation).plan) =
            some xs)) := by
  constructor
  · intro hex
    rcases hex with ⟨r0, hr0, hc0⟩
    have hfilter : r0 ∈ catDf.filter (fun r =>
        decide (r.em ∈ avail ∧ r.em ∉ st.assigned ∧
          ¬(r.pc = operation ∧ r.st = style))) :=
      List.mem_filter.mpr ⟨hr0, decide_eq_true
        (show r0.em ∈ avail ∧ r0.em ∉ st.assigned ∧
          ¬(r0.pc = operation ∧ r0.st = style) from hc0)⟩
    have hmemsort : r0 ∈ get_unskilled_operators catDf operation style avail st.assigned := by
      unfold get_unskilled_operators
      exact (perm_rankSort _ _).mem_iff.mpr hfilter
    cases hu : get_unskilled_operators catDf operation style avail st.assigned with
    | nil => rw [hu] at hmemsort; simp at hmemsort
    | cons rb rest =>
      have hrbmem : rb ∈ get_unskilled_operators catDf operation style avail st.assigned := by
        rw [hu]
        exact List.mem_cons_self _ _
      rcases mem_get_unskilled hrbmem with ⟨hrbcat, hrbc⟩
      refine ⟨rb, hrbcat, hrbc, ?_, ?_, ?_⟩
      · intro r hr hmatch
        refine assign_to_operation_ne_nil hr hmatch.2.1 hmatch.1 ?_ ?_ hn hgreedy
        · rw [hmatch.2.2]
          exact hrbc.1
        · rw [hmatch.2.2]
          exact hrbc.2.1
      · rw [fill_one_eval catDf style avail st operation hemp, hu]
        unfold lookupD
        simp [alookup_aset]
      · intro r2 hr2 hc2
        have hmem2 : r2 ∈ get_unskilled_operators catDf operation style avail st.assigned := by
          unfold get_unskilled_operators
          exact (perm_rankSort _ _).mem_iff.mpr
            (List.mem_filter.mpr ⟨hr2, decide_eq_true
              (show r2.em ∈ avail ∧ r2.em ∉ st.assigned ∧
                ¬(r2.pc = operation ∧ r2.st = style) from hc2)⟩)
        rw [hu] at hmem2
        rcases List.mem_cons.mp hmem2 with hmem2 | hmem2
        · rw [hmem2]
        · have hpair : (get_unskilled_operators catDf operation style avail
              st.assigned).Pairwise (fun x y => decide (y.weight ≤ x.weight) = true) := by
            unfold get_unskilled_operators
            exact @pairwise_rankSort StatRow (fun a b => decide (a.weight ≤ b.weight))
              weightLe_total weightLe_trans _
          rw [hu] at hpair
          exact of_decide_eq_true ((List.pairwise_cons.mp hpair).1 r2 hmem2)
  · intro hnone
    have hfe : get_unskilled_operators catDf operation style avail st.assigned = [] := by
      unfold get_unskilled_operators
      have hfil : catDf.filter (fun r =>
          decide (r.em ∈ avail ∧ r.em ∉ st.assigned ∧
            ¬(r.pc = operation ∧ r.st = style))) = [] := by
        rw [List.filter_eq_nil_iff]
        intro r hr
        intro hc
        have hc2 := of_decide_eq_true hc
        exact hnone r hr hc2
      rw [hfil]
      rfl
    constructor
    · intro hall
      rw [fill_one_eval catDf style avail st operation hemp, hfe,
        findFirstNonempty_none.mpr hall]
    · intro d x xs hfind
      rcases findFirstNonempty_decomp hfind with ⟨pre, suf, hdec, hpre⟩
      have hdonm : (d, x :: xs) ∈ lookupD style st.plan := by
        rw [hdec]
        exact List.mem_append.mpr (Or.inr (List.mem_cons_self _ _))
      have hdlook : alookup d (lookupD style st.plan) = some (x :: xs) :=
        alookup_eq_of_mem hkeys hdonm
      have hdne : ¬ operation = d := by
        intro he
        rw [← he] at hdlook
        rcases hemp with hemp | hemp <;> rw [hemp] at hdlook <;> simp at hdlook
      refine ⟨pre, suf, hdec, hpre, ?_, ?_⟩
      · rw [fill_one_eval catDf style avail st operation hemp, hfe, hfind]
        unfold lookupD
        simp [alookup_aset]
      · rw [fill_one_eval catDf style avail st operation hemp, hfe, hfind]
        unfold lookupD
        simp [alookup_aset, hdne]

/-- Witness for C5 at a concrete state: operation Y of style S is empty
after a greedy pass that found no eligible operator; operator 2 is
available, unassigned and has no (S, Y) record, so it is assigned. -/
theorem C5_gap_filler_witness :
    ((∃ r ∈ [(⟨1, "S", "X", 5, mkRat 1 2, 100⟩ : StatRow),
        ⟨2, "S", "X", 3, mkRat 1 4, 90⟩],
      UnskilledCandidate "S" "Y" [1, 2] [1] r) →
      ∃ rb ∈ [(⟨1, "S", "X", 5, mkRat 1 2, 100⟩ : StatRow),
        ⟨2, "S", "X", 3, mkRat 1 4, 90⟩],
        UnskilledCandidate "S" "Y" [1, 2] [1] rb ∧
        NoMatchingRecord [⟨1, "S", "X", 5, mkRat 1 2, 100⟩,
          ⟨2, "S", "X", 3, mkRat 1 4, 90⟩] "S" "Y" rb.em ∧
        alookup "Y" (lookupD "S" (fill_one_operation
          [⟨1, "S", "X", 5, mkRat 1 2, 100⟩, ⟨2, "S", "X", 3, mkRat 1 4, 90⟩]
          "S" [1, 2] ⟨[1], [("S", [("X", [1]), ("Y", [])])]⟩ "Y").plan) =
          some [rb.em] ∧
        ∀ r2 ∈ [(⟨1, "S", "X", 5, mkRat 1 2, 100⟩ : StatRow),
          ⟨2, "S", "X", 3, mkRat 1 4, 90⟩],
          UnskilledCandidate "S" "Y" [1, 2] [1] r2 → r2.weight ≤ rb.weight) ∧
    alookup "Y" (lookupD "S" (fill_one_operation
      [⟨1, "S", "X", 5, mkRat 1 2, 100⟩, ⟨2, "S", "X", 3, mkRat 1 4, 90⟩]
      "S" [1, 2] ⟨[1], [("S", [("X", [1]), ("Y", [])])]⟩ "Y").plan) = some [2] :=
  ⟨(C5_gap_filler
      [⟨1, "S", "X", 5, mkRat 1 2, 100⟩, ⟨2, "S", "X", 3, mkRat 1 4, 90⟩]
      "S" [1, 2] ⟨[1], [("S", [("X", [1]), ("Y", [])])]⟩ "Y" 1
      (by decide) (by decide) (by decide) (by decide)).1, by decide⟩

/-! ### Quota characterization (C2) -/

theorem filtered_count_eq (df : List TxRow) (styles : List String) (s : String)
    (hs : s ∈ styles) :
    ((df.filter fun r => decide (r.st ∈ styles)).filter fun r => decide (r.st = s)) =
      df.filter fun r => decide (r.st = s) := by
  rw [List.filter_filter]
  refine List.filter_congr ?_
  intro r hr
  by_cases h : r.st = s
  · simp [h, hs]
  · simp [h]

theorem mem_table_keys (df : List TxRow) (styles : List String) (s : String)
    (hs : s ∈ styles) (hrow : ∃ r ∈ df, r.st = s) :
    s ∈ ((df.filter fun r => decide (r.st ∈ styles)).map (·.st)).dedup := by
  rcases hrow with ⟨r, hr, hrs⟩
  refine List.mem_dedup.mpr (List.mem_map.mpr ⟨r, ?_, hrs⟩)
  refine List.mem_filter.mpr ⟨hr, ?_⟩
  rw [hrs]
  exact decide_eq_true hs

theorem quota_table_lookup (df : List TxRow) (styles : List String) (P : ℕ)
    (s : String) (hs : s ∈ styles) (hrow : ∃ r ∈ df, r.st = s) :
    alookup s (operator_allocation_table df styles P) =
      some (Int.toNat ⌈(distinct_operation_count df s : ℚ) /
        (total_operations df styles : ℚ) * (P : ℚ)⌉) := by
  unfold operator_allocation_table style_operation_counts
  rw [List.map_map]
  have hform : ∀ t : String,
      ((fun sc : String × ℕ =>
          (sc.1, Int.toNat ⌈qmul (qdiv (sc.2 : ℚ) (total_operations df styles : ℚ))
            ((P : ℕ) : ℚ)⌉)) ∘
        (fun v => (v, ((((df.filter fun r => decide (r.st ∈ styles)).filter
          fun r => decide (r.st = v)).map (·.pc)).dedup).length))) t =
      (t, Int.toNat ⌈qmul (qdiv
        (((((df.filter fun r => decide (r.st ∈ styles)).filter
          fun r => decide (r.st = t)).map (·.pc)).dedup).length : ℚ)
        (total_operations df styles : ℚ)) ((P : ℕ) : ℚ)⌉) := fun t => rfl
  rw [List.map_congr_left (fun t _ => hform t)]
  rw [alookup_map_self]
  rw [if_pos (mem_table_keys df styles s hs hrow)]
  rw [filtered_count_eq df styles s hs]
  rw [qmul_eq, qdiv_eq]
  rfl

theorem sum_filter_drop_zero {f : String → ℕ} {p : String → Bool} :
    ∀ {l : List String}, (∀ x ∈ l, p x = false → f x = 0) →
    ((l.filter p).map f).sum = (l.map f).sum := by
  intro l
  induction l with
  | nil => intro _; rfl
  | cons a l ih =>
    intro h
    cases hp : p a with
    | true =>
      simp only [List.filter_cons, hp, if_pos, List.map_cons, List.sum_cons]
      rw [ih (fun x hx => h x (List.mem_cons_of_mem a hx))]
    | false =>
      simp only [List.filter_cons, hp, Bool.false_eq_true, if_false,
        List.map_cons, List.sum_cons]
      rw [ih (fun x hx => h x (List.mem_cons_of_mem a hx)),
        h a (List.mem_cons_self a l) hp]
      simp

theorem total_operations_eq (df : List TxRow) (styles : List String) :
    total_operations df styles =
      (styles.dedup.map fun s => distinct_operation_count df s).sum := by
  unfold total_operations style_operation_counts
  rw [List.map_map]
  have hform : ∀ t ∈ ((df.filter fun r => decide (r.st ∈ styles)).map (·.st)).dedup,
      (Prod.snd ∘ (fun v => (v, ((((df.filter fun r => decide (r.st ∈ styles)).filter
        fun r => decide (r.st = v)).map (·.pc)).dedup).length))) t =
      distinct_operation_count df t := by
    intro t ht
    have ht2 : t ∈ styles := by
      rcases List.mem_map.mp (List.mem_dedup.mp ht) with ⟨r, hr, hrs⟩
      rcases List.mem_filter.mp hr with ⟨_, hrst⟩
      rw [← hrs]
      exact of_decide_eq_true hrst
    show ((((df.filter fun r => decide (r.st ∈ styles)).filter
      fun r => decide (r.st = t)).map (·.pc)).dedup).length = distinct_operation_count df t
    rw [filtered_count_eq df styles t ht2]
    rfl
  rw [List.map_congr_left hform]
  -- now compare the index lists
  have hperm : List.Perm
      (((df.filter fun r => decide (r.st ∈ styles)).map (·.st)).dedup)
      (styles.dedup.filter fun s =>
        decide (s ∈ ((df.filter fun r => decide (r.st ∈ styles)).map (·.st)).dedup)) := by
    refine (List.perm_ext_iff_of_nodup (List.nodup_dedup _)
      ((List.nodup_dedup _).filter _)).mpr ?_
    intro a
    constructor
    · intro ha
      refine List.mem_filter.mpr ⟨?_, decide_eq_true ha⟩
      rcases List.mem_map.mp (List.mem_dedup.mp ha) with ⟨r, hr, hrs⟩
      rcases List.mem_filter.mp hr with ⟨_, hrst⟩
      refine List.mem_dedup.mpr ?_
      rw [← hrs]
      exact of_decide_eq_true hrst
    · intro ha
      exact of_decide_eq_true (List.mem_filter.mp ha).2
  rw [(hperm.map fun s => distinct_operation_count df s).sum_eq]
  refine sum_filter_drop_zero ?_
  intro x hx hpx
  have hxs : x ∈ styles := List.mem_dedup.mp hx
  have hnotin : x ∉ ((df.filter fun r => decide (r.st ∈ styles)).map (·.st)).dedup :=
    of_decide_eq_false hpx
  unfold distinct_operation_count
  have hnone : df.filter (fun r => decide (r.st = x)) = [] := by
    rw [List.filter_eq_nil_iff]
    intro r hr hc
    have hrs := of_decide_eq_true hc
    refine hnotin ?_
    refine List.mem_dedup.mpr (List.mem_map.mpr ⟨r, ?_, hrs⟩)
    refine List.mem_filter.mpr ⟨hr, ?_⟩
    rw [hrs]
    exact decide_eq_true hxs
  rw [hnone]
  rfl

theorem lookupD_aset_self (style : String) (M : OpMap) (p : Plan) :
    lookupD style (aset style M p) = M := by
  unfold lookupD
  rw [alookup_aset, if_pos rfl]
  rfl

theorem styleSub_set (style op : String) (l a' : List ℕ)
    {avail : List ℕ} {st : AllocState}
    (hl : ∀ x ∈ l, x ∈ avail) (hsub : StyleSub style avail st) :
    StyleSub style avail
      ⟨a', aset style (aset op l (lookupD style st.plan)) st.plan⟩ := by
  intro ol hol x hx
  rw [lookupD_aset_self] at hol
  rcases mem_aset_val hol with hv | hv
  · rw [hv] at hx
    exact hl x hx
  · exact hsub ol hv x hx

theorem styleSub_move (style op donor : String) (x : ℕ) (xs : List ℕ) (a' : List ℕ)
    {avail : List ℕ} {st : AllocState}
    (hdon : (donor, x :: xs) ∈ lookupD style st.plan)
    (hsub : StyleSub style avail st) :
    StyleSub style avail
      ⟨a', aset style (aset op [x]
        (aset donor xs (lookupD style st.plan))) st.plan⟩ := by
  have hxa : x ∈ avail := hsub (donor, x :: xs) hdon x (List.mem_cons_self _ _)
  have hxs : ∀ y ∈ xs, y ∈ avail := fun y hy =>
    hsub (donor, x :: xs) hdon y (List.mem_cons_of_mem _ hy)
  intro ol hol y hy
  rw [lookupD_aset_self] at hol
  rcases mem_aset_val hol with hv | hv
  · rw [hv] at hy
    rw [List.mem_singleton.mp hy]
    exact hxa
  · rcases mem_aset_val hv with hv2 | hv2
    · rw [hv2] at hy
      exact hxs y hy
    · exact hsub ol hv2 y hy

theorem styleSub_reset (style : String) (avail : List ℕ) (st : AllocState)
    (a' : List ℕ) :
    StyleSub style avail ⟨a', aset style [] st.plan⟩ := by
  intro ol hol
  rw [lookupD_aset_self] at hol
  cases hol

theorem styleSub_allocate_one (catDf : List StatRow) (style : String)
    (avail : List ℕ) (sumT : ℚ) (st : AllocState) (ot : String × ℚ)
    (hsub : StyleSub style avail st) :
    StyleSub style avail (allocate_one_operation catDf style avail sumT st ot) := by
  refine styleSub_set style ot.1 _ _ ?_ hsub
  intro x hx
  rcases mem_assign_to_operation hx with ⟨r, hr, hrx, hpc, hst, hxop, hxna⟩
  exact hxop

theorem styleSub_fill_tail (catDf : List StatRow) (style : String) (avail : List ℕ)
    (st : AllocState) (operation : String) (hsub : StyleSub style avail st) :
    StyleSub style avail
      (match get_unskilled_operators catDf operation style avail st.assigned with
      | r :: _ =>
        ({ assigned := r.em :: st.assigned,
           plan := aset style (aset operation [r.em] (lookupD style st.plan)) st.plan } :
          AllocState)
      | [] =>
        match findFirstNonempty (lookupD style st.plan) with
        | some (donor, x, xs) =>
          { assigned := x :: st.assigned,
            plan := aset style (aset operation [x]
              (aset donor xs (lookupD style st.plan))) st.plan }
        | none => st) := by
  cases hu : get_unskilled_operators catDf operation style avail st.assigned with
  | cons r rest =>
    refine styleSub_set style operation [r.em] _ ?_ hsub
    intro x hx
    rw [List.mem_singleton.mp hx]
    have hrmem : r ∈ get_unskilled_operators catDf operation style avail st.assigned := by
      rw [hu]
      exact List.mem_cons_self r rest
    exact (mem_get_unskilled hrmem).2.1
  | nil =>
    cases hf : findFirstNonempty (lookupD style st.plan) with
    | some t =>
      obtain ⟨donor, x, xs⟩ := t
      exact styleSub_move style operation donor x xs _
        (findFirstNonempty_mem hf) hsub
    | none => exact hsub

theorem styleSub_fill_one (catDf : List StatRow) (style : String) (avail : List ℕ)
    (st : AllocState) (operation : String) (hsub : StyleSub style avail st) :
    StyleSub style avail (fill_one_operation catDf style avail st operation) := by
  unfold fill_one_operation
  cases halo : alookup operation (lookupD style st.plan) with
  | none => exact styleSub_fill_tail catDf style avail st operation hsub
  | some l =>
    cases l with
    | nil => exact styleSub_fill_tail catDf style avail st operation hsub
    | cons a tail => exact hsub

theorem styleSub_foldl_alloc (catDf : List StatRow) (style : String)
    (avail : List ℕ) (sumT : ℚ) :
    ∀ (ots : List (String × ℚ)) (st : AllocState), StyleSub style avail st →
      StyleSub style avail
        (ots.foldl (allocate_one_operation catDf style avail sumT) st) := by
  intro ots
  induction ots with
  | nil => intro st h; exact h
  | cons ot ots ih =>
    intro st h
    exact ih _ (styleSub_allocate_one catDf style avail sumT st ot h)

theorem styleSub_foldl_fill (catDf : List StatRow) (style : String)
    (avail : List ℕ) :
    ∀ (ops : List String) (st : AllocState), StyleSub style avail st →
      StyleSub style avail
        (ops.foldl (fill_one_operation catDf style avail) st) := by
  intro ops
  induction ops with
  | nil => intro st h; exact h
  | cons op ops ih =>
    intro st h
    exact ih _ (styleSub_fill_one catDf style avail st op h)

theorem process_style_consumes (catDf : List StatRow) (df : List TxRow)
    (table : List (String × ℕ)) (st : AllocState) (pool : List ℕ)
    (style : String) (np : ℕ) (hnp : alookup style table = some np) :
    ∃ st', process_style catDf df table (some (st, pool)) style =
        some (st', pool.drop np) ∧
      (pool.take np).length = min np pool.length ∧
      StyleSub style (pool.take np) st' := by
  refine ⟨fill_empty_operations (operation_times df style) catDf style (pool.take np)
    ((operation_times df style).foldl
      (allocate_one_operation catDf style (pool.take np)
        (qsum ((operation_times df style).map (·.2))))
      { st with plan := aset style [] st.plan }), ?_, ?_, ?_⟩
  · unfold process_style
    rw [hnp]
  · exact List.length_take np pool
  · have h0 : StyleSub style (pool.take np)
        { st with plan := aset style ([] : OpMap) st.plan } :=
      styleSub_reset style (pool.take np) st st.assigned
    have h1 := styleSub_foldl_alloc catDf style (pool.take np)
      (qsum ((operation_times df style).map (·.2))) (operation_times df style) _ h0
    unfold fill_empty_operations
    exact styleSub_foldl_fill catDf style (pool.take np)
      ((operation_times df style).map (·.1)) _ h1

/-- Claim C2: the quota of each style present in the restricted table is
ceil(opsCount / T · P) with T the sum of the per-style distinct-operation
counts and P the pool size; each style processed consumes the prefix
pool.take quota of the remaining pool (of length min(quota, remaining)),
leaving pool.drop quota, and its plan entries draw only from that prefix;
and in the concrete A/B example A receives 4 operators, B exactly 1, and
order [B, A] produces a different plan. -/
theorem C2_quota_splitting (df : List TxRow) (styles : List String) (P : ℕ)
    (catDf : List StatRow) (st : AllocState) (pool : List ℕ)
    (s style : String) (np : ℕ)
    (hs : s ∈ styles) (hrow : ∃ r ∈ df, r.st = s)
    (hnp : alookup style (operator_allocation_table df styles P) = some np) :
    (alookup s (operator_allocation_table df styles P) =
      some (Int.toNat ⌈(distinct_operation_count df s : ℚ) /
        (total_operations df styles : ℚ) * (P : ℚ)⌉)) ∧
    total_operations df styles =
      (styles.dedup.map fun t => distinct_operation_count df t).sum ∧
    (∃ st', process_style catDf df (operator_allocation_table df styles P)
        (some (st, pool)) style = some (st', pool.drop np) ∧
      (pool.take np).length = min np pool.length ∧
      StyleSub style (pool.take np) st') ∧
    (operator_allocation_table dfC2ex ["A", "B"] 5 = [("A", 4), ("B", 2)] ∧
     ∃ planAB poolAB planBA poolBA,
       allocate_operators catC2ex dfC2ex [1, 2, 3, 4, 5] ["A", "B"] [] =
         some (planAB, poolAB) ∧
       allocate_operators catC2ex dfC2ex [1, 2, 3, 4, 5] ["B", "A"] [] =
         some (planBA, poolBA) ∧
       ((lookupD "A" planAB).map (·.2)).flatten.length = 4 ∧
       ((lookupD "B" planAB).map (·.2)).flatten.length = 1 ∧
       planAB ≠ planBA) := by
  refine ⟨quota_table_lookup df styles P s hs hrow,
    total_operations_eq df styles,
    process_style_consumes catDf df (operator_allocation_table df styles P)
      st pool style np hnp,
    by decide,
    [("A", [("X", [1, 2]), ("Y", [3, 4])]), ("B", [("Z", [5])])], [5, 3, 4, 1, 2],
    [("B", [("Z", [1])]), ("A", [("X", [4]), ("Y", [3])])], [4, 3, 1],
    by decide, by decide, by decide, by decide, by decide⟩

/-- Witness for C2 at the concrete quota example, style A with quota 4. -/
theorem C2_quota_splitting_witness :
    ("A" ∈ ["A", "B"] ∧ (∃ r ∈ dfC2ex, r.st = "A") ∧
      alookup "A" (operator_allocation_table dfC2ex ["A", "B"] 5) = some 4) ∧
    ((alookup "A" (operator_allocation_table dfC2ex ["A", "B"] 5) =
      some (Int.toNat ⌈(distinct_operation_count dfC2ex "A" : ℚ) /
        (total_operations dfC2ex ["A", "B"] : ℚ) * ((5 : ℕ) : ℚ)⌉)) ∧
    total_operations dfC2ex ["A", "B"] =
      (["A", "B"].dedup.map fun t => distinct_operation_count dfC2ex t).sum ∧
    (∃ st', process_style catC2ex dfC2ex
        (operator_allocation_table dfC2ex ["A", "B"] 5)
        (some (⟨[], []⟩, [1, 2, 3, 4, 5])) "A" =
          some (st', [1, 2, 3, 4, 5].drop 4) ∧
      ([1, 2, 3, 4, 5].take 4).length = min 4 [1, 2, 3, 4, 5].length ∧
      StyleSub "A" ([1, 2, 3, 4, 5].take 4) st') ∧
    (operator_allocation_table dfC2ex ["A", "B"] 5 = [("A", 4), ("B", 2)] ∧
     ∃ planAB poolAB planBA poolBA,
       allocate_operators catC2ex dfC2ex [1, 2, 3, 4, 5] ["A", "B"] [] =
         some (planAB, poolAB) ∧
       allocate_operators catC2ex dfC2ex [1, 2, 3, 4, 5] ["B", "A"] [] =
         some (planBA, poolBA) ∧
       ((lookupD "A" planAB).map (·.2)).flatten.length = 4 ∧
       ((lookupD "B" planAB).map (·.2)).flatten.length = 1 ∧
       planAB ≠ planBA)) :=
  ⟨⟨by decide, ⟨⟨"A", "X", 10⟩, by decide, rfl⟩, by decide⟩,
    C2_quota_splitting dfC2ex ["A", "B"] 5 catC2ex ⟨[], []⟩ [1, 2, 3, 4, 5]
      "A" "A" 4 (by decide) ⟨⟨"A", "X", 10⟩, by decide, rfl⟩ (by decide)⟩

end INA
